import Mathlib

/-!
Verification of the bitcoin address analyzer (`src/analyzer.py`).

The development shallowly embeds the analyzer's core: the per-address
constraint store, the transaction relevance filter, the frontier expansion
engine (`analyze`) driven by an abstract HTTP lookup oracle, and the
post-hoc pruning filter (`filter_relevant_graph`) based on
descendant/ancestor reachability intersection.

Machine integers never overflow in the source (Python), so timestamps are
modelled as `Int` and levels as `Nat`.  The external HTTP service is an
oracle parameter; the engine is otherwise deterministic.  Python `set`
values are modelled as insertion-ordered duplicate-free lists (`insertA`).
-/

namespace BtcAnalyzer

/-- Insert a string at the end of a list unless already present
(models Python `set.add` with deterministic iteration order). -/
def insertA (a : String) (l : List String) : List String :=
  if a ∈ l then l else l ++ [a]

/-- Deduplicate a list keeping first occurrences (models `set(xs)` built
from an iterable, with deterministic order). -/
def dedupKeepFirst (l : List String) : List String :=
  l.foldl (fun acc a => insertA a acc) []

/-- Edge attributes stored by `graph.add_edge(s, r, tx_hash=..., time=...)`:
the transaction hash (which `tx.get('hash')` may fail to supply) and its
timestamp. -/
structure EdgeData where
  tx_hash : Option String
  time : Int
deriving DecidableEq, Repr

/-- A `networkx.DiGraph`: node list plus edge list.  `add_edge` keeps at
most one edge per ordered pair by construction (upsert), mirroring the
dict-of-dicts representation. -/
structure DiGraph where
  nodes : List String
  edges : List (String × String × EdgeData)
deriving DecidableEq, Repr

/-- Replace the attributes of the first edge with key `(s, r)`, or append a
fresh edge if the pair is absent (networkx `add_edge` semantics on the
adjacency dict). -/
def upsertE : List (String × String × EdgeData) → String → String → EdgeData →
    List (String × String × EdgeData)
  | [], s, r, d => [(s, r, d)]
  | e :: t, s, r, d =>
      if e.1 = s ∧ e.2.1 = r then (s, r, d) :: t else e :: upsertE t s r d

/-- `graph.add_edge(s, r, ...)`: registers both endpoints as nodes and
upserts the edge record. -/
def add_edge (g : DiGraph) (s r : String) (d : EdgeData) : DiGraph :=
  ⟨insertA r (insertA s g.nodes), upsertE g.edges s r d⟩

/-- First edge record for an ordered pair, if any. -/
def lookupEdge (g : DiGraph) (s r : String) : Option EdgeData :=
  (g.edges.find? (fun e => e.1 = s && e.2.1 = r)).map (fun e => e.2.2)

/-- Number of edge records carrying the ordered pair `(s, r)`. -/
def countEdge (g : DiGraph) (s r : String) : Nat :=
  (g.edges.filter (fun e => e.1 = s && e.2.1 = r)).length

/-- Ordered-pair keys of all edge records. -/
def keysOf (g : DiGraph) : List (String × String) :=
  g.edges.map (fun e => (e.1, e.2.1))

/-- The constraint store `self.address_constraints`:
address ↦ list of `(min_ts, max_ts)` windows, as an association list. -/
abbrev Constraints := List (String × List (Int × Int))

/-- Association-list lookup (Python dict access). -/
def lookupC : Constraints → String → Option (List (Int × Int))
  | [], _ => none
  | (b, ws) :: t, a => if b = a then some ws else lookupC t a

/-- The recorded windows of an address (empty when absent). -/
def windowsOf (c : Constraints) (a : String) : List (Int × Int) :=
  (lookupC c a).getD []

/-- `add_constraint(addr, min_ts, max_ts)`: append a window to the
address's list, creating the list when absent; never replaces prior
windows. -/
def add_constraint : Constraints → String → Int → Int → Constraints
  | [], a, mn, mx => [(a, [(mn, mx)])]
  | (b, ws) :: t, a, mn, mx =>
      if b = a then (b, ws ++ [(mn, mx)]) :: t
      else (b, ws) :: add_constraint t a mn mx

/-- `is_tx_relevant(addr, tx_time)`: false when the address has no
recorded constraints; otherwise true iff some window contains the
timestamp inclusively. -/
def is_tx_relevant (c : Constraints) (addr : String) (tx_time : Int) : Bool :=
  match lookupC c addr with
  | none => false
  | some ws => ws.any (fun w => decide (w.1 ≤ tx_time) && decide (tx_time ≤ w.2))

/-- `inp['prev_out']` payload: the resolved source address, when present. -/
structure PrevOut where
  addr : Option String
deriving DecidableEq, Repr

/-- A transaction input; `prev_out` may be missing. -/
structure TxInput where
  prev_out : Option PrevOut
deriving DecidableEq, Repr

/-- A transaction output; `addr` may be unresolvable. -/
structure TxOut where
  addr : Option String
deriving DecidableEq, Repr

/-- A transaction record as consumed from the lookup payload:
`tx.get('hash')`, `tx.get('time', 0)`, inputs and outputs. -/
structure Tx where
  hash : Option String
  time : Option Int
  inputs : List TxInput
  out : List TxOut
deriving DecidableEq, Repr

/-- `tx.get('time', 0)`. -/
def txTime (tx : Tx) : Int := tx.time.getD 0

/-- The sender set: resolved, non-empty `prev_out.addr` strings of the
inputs (Python `if addr:` rejects `None` and the empty string). -/
def txSenders (tx : Tx) : List String :=
  tx.inputs.foldl
    (fun acc inp =>
      match inp.prev_out with
      | none => acc
      | some po =>
          match po.addr with
          | none => acc
          | some a => if a = "" then acc else insertA a acc)
    []

/-- The receiver set: resolved, non-empty `addr` strings of the outputs. -/
def txReceivers (tx : Tx) : List String :=
  tx.out.foldl
    (fun acc o =>
      match o.addr with
      | none => acc
      | some a => if a = "" then acc else insertA a acc)
    []

/-- `all_participants = senders | receivers`. -/
def txParticipants (tx : Tx) : List String :=
  (txReceivers tx).foldl (fun acc a => insertA a acc) (txSenders tx)

/-- The relevance decision of the engine's inner loop: some participant
belongs to the current batch and satisfies its time constraints at the
transaction's timestamp. -/
def txRelevant (c : Constraints) (batch : List String) (tx : Tx) : Bool :=
  (txParticipants tx).any
    (fun a => decide (a ∈ batch) && is_tx_relevant c a (txTime tx))

/-- Outcome of `requests.get(url)` plus JSON decoding, abstracted: either
an exception anywhere in the attempt, or a response with an HTTP status
code and the decoded `txs` list. -/
inductive HttpResult where
  | failure (msg : String) : HttpResult
  | response (status : Nat) (txs : List Tx) : HttpResult

/-- `fetch_batch_transactions(addresses)`: empty input short-circuits;
an exception or a non-200 status degrades to the empty list; a 200
response yields its transaction list. -/
def fetch_batch_transactions (httpGet : List String → HttpResult)
    (addresses : List String) : List Tx :=
  if addresses = [] then []
  else
    match httpGet addresses with
    | .failure _ => []
    | .response status txs => if status = 200 then txs else []

/-- The engine's run state: the graph, the visited set, the raw relevant
transaction log, the constraint store, and the next-level frontier being
accumulated during the current level. -/
structure St where
  graph : DiGraph
  visited : List String
  all_transactions : List Tx
  address_constraints : Constraints
  nextLevel : List String
deriving DecidableEq

/-- One week in seconds, the propagation slack. -/
def one_week : Int := 7 * 24 * 3600

/-- The body of the nested `for s in senders: for r in receivers:` loop
for one (sender, receiver) pair of a relevant transaction: skip self-loops,
upsert the edge, and when below `max_level` propagate a
`[t - one_week, t + one_week]` window to each endpoint that is neither
visited nor in the current frontier, adding it to the next frontier. -/
def processPair (level maxLevel : Nat) (current : List String) (t : Int)
    (h : Option String) (st : St) (s r : String) : St :=
  if s = r then st
  else
    let st1 := { st with graph := add_edge st.graph s r ⟨h, t⟩ }
    if level < maxLevel then
      let st2 :=
        if s ∉ st1.visited ∧ s ∉ current then
          { st1 with
            nextLevel := insertA s st1.nextLevel
            address_constraints :=
              add_constraint st1.address_constraints s (t - one_week) (t + one_week) }
        else st1
      if r ∉ st2.visited ∧ r ∉ current then
        { st2 with
          nextLevel := insertA r st2.nextLevel
          address_constraints :=
            add_constraint st2.address_constraints r (t - one_week) (t + one_week) }
      else st2
    else st1

/-- Process one fetched transaction: if irrelevant for the current batch,
do nothing; otherwise log it and process every sender/receiver pair. -/
def processTx (level maxLevel : Nat) (current batch : List String)
    (st : St) (tx : Tx) : St :=
  if txRelevant st.address_constraints batch tx then
    let st1 := { st with all_transactions := st.all_transactions ++ [tx] }
    (txSenders tx).foldl
      (fun a s =>
        (txReceivers tx).foldl
          (fun b r => processPair level maxLevel current (txTime tx) tx.hash b s r)
          a)
      st1
  else st

/-- Fuel-driven chunking: each step emits `l[0:20]` and recurses on
`l[20:]`; `l.length` units of fuel always suffice. -/
def chunk20Fuel : Nat → List String → List (List String)
  | 0, _ => []
  | _, [] => []
  | fuel + 1, a :: t => ((a :: t).take 20) :: chunk20Fuel fuel ((a :: t).drop 20)

/-- Partition the frontier into batches of 20 addresses
(`[lst[i:i+20] for i in range(0, len(lst), 20)]`). -/
def chunk20 (l : List String) : List (List String) :=
  chunk20Fuel l.length l

/-- One level of the engine: fetch and process every batch of the current
frontier.  `visited` is only read during a level. -/
def runLevel (httpGet : Nat → List String → HttpResult) (level maxLevel : Nat)
    (current : List String) (st : St) : St :=
  (chunk20 current).foldl
    (fun acc batch =>
      (fetch_batch_transactions (httpGet level) batch).foldl
        (processTx level maxLevel current batch) acc)
    st

/-- `visited.update(next)`. -/
def updateVisited (v next : List String) : List String :=
  next.foldl (fun acc a => insertA a acc) v

/-- Snapshot of one executed level: its number, the frontier, the run
state at the start of the level, and the next frontier produced. -/
structure TraceEntry where
  level : Nat
  frontier : List String
  stStart : St
  next : List String
deriving DecidableEq

/-- The `for level in range(max_level + 1)` loop, breaking on an empty
frontier; alongside the final state it records a trace entry per executed
level. -/
def loop (httpGet : Nat → List String → HttpResult) (maxLevel : Nat) :
    Nat → Nat → List String → St → St × List TraceEntry
  | 0, _, _, st => (st, [])
  | fuel + 1, level, current, st =>
      if current = [] then (st, [])
      else
        let st1 := runLevel httpGet level maxLevel current { st with nextLevel := [] }
        let next := st1.nextLevel
        let st2 := { st1 with visited := updateVisited st1.visited next }
        let rest := loop httpGet maxLevel fuel (level + 1) next st2
        (rest.1, ⟨level, current, st, next⟩ :: rest.2)

/-- `int(start_date.timestamp()) if start_date else 0`. -/
def startTs : Option Int → Int
  | some v => v
  | none => 0

/-- `int(end_date.timestamp()) if end_date else 99999999999`. -/
def endTs : Option Int → Int
  | some v => v
  | none => 99999999999

/-- The constructor's constraint initialisation: one caller-supplied (or
default) window per distinct seed address. -/
def mkConstraints (addresses : List String) (sd ed : Option Int) : Constraints :=
  (dedupKeepFirst addresses).foldl
    (fun c a => add_constraint c a (startTs sd) (endTs ed)) []

/-- The whole run — `BitcoinAnalyzer(addresses, max_level, ...)` followed
by `analyze()`: seeds become graph nodes, the visited set and level-0
frontier, and the level loop runs with `max_level + 1` rounds of fuel. -/
def analyze (addresses : List String) (maxLevel : Nat) (sd ed : Option Int)
    (httpGet : Nat → List String → HttpResult) : St × List TraceEntry :=
  let initial := dedupKeepFirst addresses
  let st0 : St := ⟨⟨initial, []⟩, initial, [], mkConstraints addresses sd ed, []⟩
  loop httpGet maxLevel (maxLevel + 1) 0 initial st0

/-! ## Reachability machinery for the pruning filter -/

/-- Direct successors of a node: targets of its outgoing edges. -/
def succsF (g : DiGraph) (x : String) : Finset String :=
  ((g.edges.filter (fun e => e.1 = x)).map (fun e => e.2.1)).toFinset

/-- All edge targets of the graph (bounds every reachability search). -/
def edgeTargets (g : DiGraph) : Finset String :=
  (g.edges.map (fun e => e.2.1)).toFinset

/-- One expansion step of the reachability closure. -/
def stepF (g : DiGraph) (cur : Finset String) : Finset String :=
  cur ∪ cur.biUnion (succsF g)

/-- Iterated expansion. -/
def iterF (g : DiGraph) : Nat → Finset String → Finset String
  | 0, cur => cur
  | n + 1, cur => iterF g n (stepF g cur)

/-- The set of nodes reachable from `a` (including `a`): the closure is
reached after at most `|{a} ∪ targets|` expansion steps. -/
def reachSet (g : DiGraph) (a : String) : Finset String :=
  iterF g (insert a (edgeTargets g)).card {a}

/-- The edge relation of the graph. -/
def edgeRel (g : DiGraph) (x y : String) : Prop :=
  ∃ d, (x, y, d) ∈ g.edges

/-- `y` is reachable from `x` along directed edges. -/
def Reaches (g : DiGraph) (x y : String) : Prop :=
  Relation.ReflTransGen (edgeRel g) x y

/-- The reversed graph (for ancestor computations). -/
def reverseG (g : DiGraph) : DiGraph :=
  ⟨g.nodes, g.edges.map (fun e => (e.2.1, e.1, e.2.2))⟩

/-- `nx.descendants(G, n)`: nodes reachable from `n`, excluding `n`. -/
def nxDescendants (g : DiGraph) (n : String) : Finset String :=
  (reachSet g n).erase n

/-- `nx.ancestors(G, n)`: nodes that can reach `n`, excluding `n`. -/
def nxAncestors (g : DiGraph) (n : String) : Finset String :=
  (reachSet (reverseG g) n).erase n

/-- The node-induced subgraph over a node set (`G.subgraph(keep)`). -/
def subgraphOver (g : DiGraph) (keep : Finset String) : DiGraph :=
  ⟨g.nodes.filter (fun a => decide (a ∈ keep)),
   g.edges.filter (fun e => decide (e.1 ∈ keep) && decide (e.2.1 ∈ keep))⟩

/-- `initial_list`: the distinct seed addresses present in the graph. -/
def presentSeeds (initial : List String) (g : DiGraph) : List String :=
  (dedupKeepFirst initial).filter (fun a => decide (a ∈ g.nodes))

/-- The `descendants` accumulation loop of `filter_relevant_graph`:
`descendants.update(nx.descendants(G, node)); descendants.add(node)`. -/
def descFold (g : DiGraph) (l : List String) : Finset String :=
  l.foldl (fun acc node => insert node (acc ∪ nxDescendants g node)) ∅

/-- The `ancestors` accumulation loop of `filter_relevant_graph`. -/
def ancFold (g : DiGraph) (l : List String) : Finset String :=
  l.foldl (fun acc node => insert node (acc ∪ nxAncestors g node)) ∅

/-- `filter_relevant_graph`: with fewer than two present seeds, the
induced subgraph over the present seeds; otherwise the induced subgraph
over the intersection of the seeds' descendant and ancestor unions. -/
def filter_relevant_graph (initial : List String) (g : DiGraph) : DiGraph :=
  let initial_list := presentSeeds initial g
  if initial_list.length < 2 then subgraphOver g initial_list.toFinset
  else subgraphOver g (descFold g initial_list ∩ ancFold g initial_list)

/-- Well-formedness enjoyed by every networkx graph: edge endpoints are
nodes. -/
def WFGraph (g : DiGraph) : Prop :=
  ∀ e ∈ g.edges, e.1 ∈ g.nodes ∧ e.2.1 ∈ g.nodes

instance (g : DiGraph) : Decidable (WFGraph g) :=
  decidable_of_iff (∀ e ∈ g.edges, e.1 ∈ g.nodes ∧ e.2.1 ∈ g.nodes) Iff.rfl

/-- A graph predicate preserved by every loop-free edge insertion. -/
def GPreserved (P : DiGraph → Prop) : Prop :=
  ∀ (g : DiGraph) (s r : String) (d : EdgeData), s ≠ r → P g → P (add_edge g s r d)

/-- The graph update performed for one transaction, as a pure fold on the
graph: it does not depend on the level, the level bound, the frontier or
the visited set. -/
def txGraphUpdate (tx : Tx) (g : DiGraph) : DiGraph :=
  (txSenders tx).foldl
    (fun g2 s =>
      (txReceivers tx).foldl
        (fun g3 r => if s = r then g3 else add_edge g3 s r ⟨tx.hash, txTime tx⟩) g2)
    g

/-- Number of ordered sender/receiver pairs `(s, r)` of the transaction
with `s ≠ r` and `a ∈ {s, r}` — one propagated constraint window is
appended per such pair. -/
def txPairCount (tx : Tx) (a : String) : Nat :=
  ((txSenders tx).map (fun s =>
    ((txReceivers tx).filter
      (fun r => decide (¬ s = r ∧ (s = a ∨ r = a)))).length)).sum

/-! ## Concrete fixtures for witnesses and counterexamples -/

/-- Chain graph A → X → B with dead-end branch X → Y. -/
def gChain : DiGraph :=
  add_edge
    (add_edge (add_edge ⟨[], []⟩ "A" "X" ⟨some "t1", 1⟩) "X" "B" ⟨some "t2", 2⟩)
    "X" "Y" ⟨some "t3", 3⟩

/-- One transaction addr1 → addr2 at time 1000. -/
def txAB : Tx := ⟨some "tx1", some 1000, [⟨some ⟨some "addr1"⟩⟩], [⟨some "addr2"⟩]⟩

/-- Lookup oracle answering only the batch `["addr1"]`. -/
def oracleAB : Nat → List String → HttpResult := fun _ b =>
  if b = ["addr1"] then .response 200 [txAB] else .response 200 []

/-- A relevant transaction with senders `{A, N}` and no resolvable
receivers. -/
def txNoRecv : Tx :=
  ⟨some "tx3", some 1000, [⟨some ⟨some "A"⟩⟩, ⟨some ⟨some "N"⟩⟩], []⟩

/-- Oracle returning `txNoRecv` for the seed batch. -/
def oracleNoRecv : Nat → List String → HttpResult := fun _ b =>
  if b = ["A"] then .response 200 [txNoRecv] else .response 200 []

/-- A relevant transaction with senders `{A, M}` and receivers `{B, C}`. -/
def txMulti : Tx :=
  ⟨some "tx4", some 1000, [⟨some ⟨some "A"⟩⟩, ⟨some ⟨some "M"⟩⟩],
    [⟨some "B"⟩, ⟨some "C"⟩]⟩

/-- A relevant transaction with senders `{A, Z}` and receiver `{W}`. -/
def txZW : Tx :=
  ⟨some "tx2", some 1000, [⟨some ⟨some "A"⟩⟩, ⟨some ⟨some "Z"⟩⟩], [⟨some "W"⟩]⟩

/-- Oracle returning `txZW` for the seed batch. -/
def oracleZW : Nat → List String → HttpResult := fun _ b =>
  if b = ["A"] then .response 200 [txZW] else .response 200 []

/-- Oracle returning no transactions at all. -/
def oracleEmpty : Nat → List String → HttpResult := fun _ _ =>
  HttpResult.response 200 []

/-- The run state right after construction with the single seed "A". -/
def stSeedA : St := ⟨⟨["A"], []⟩, ["A"], [], mkConstraints ["A"] none none, []⟩

/-- A single-window constraint store for the examples. -/
def cW : Constraints := add_constraint [] "a" 10 20

/-- The zero-level run on seed "a1" with the empty oracle. -/
def runC9 := analyze ["a1"] 0 none none oracleEmpty

/-- The transaction contains the ordered pair `(s, r)`: `s` among its
senders, `r` among its receivers, with distinct endpoints — exactly when
the pair loop upserts the edge `(s, r)` for this transaction. -/
abbrev txHasPair (tx : Tx) (s r : String) : Prop :=
  s ∈ txSenders tx ∧ r ∈ txReceivers tx ∧ ¬ s = r

/-- The attributes of the engine's last write to the ordered pair
`(s, r)` while processing the transaction list in order: the hash/time of
the most recently processed transaction that is relevant at its
processing point and contains the pair (`none` when no processed
transaction writes the pair).  The relevance decision is replayed on the
evolving run state, exactly as the engine makes it. -/
def lastPairWrite (level maxLevel : Nat) (current batch : List String)
    (s r : String) : List Tx → St → Option EdgeData
  | [], _ => none
  | tx :: rest, st =>
      match lastPairWrite level maxLevel current batch s r rest
          (processTx level maxLevel current batch st tx) with
      | some d => some d
      | none =>
          if txRelevant st.address_constraints batch tx = true ∧ txHasPair tx s r
          then some ⟨tx.hash, txTime tx⟩ else none

/-- A relevant transaction writing the pair (A, R) among others:
senders `{A, U}`, receiver `{R}`. -/
def txP1 : Tx :=
  ⟨some "p1", some 1000, [⟨some ⟨some "A"⟩⟩, ⟨some ⟨some "U"⟩⟩], [⟨some "R"⟩]⟩

/-- A later relevant transaction writing the pair (A, R) among others:
sender `{A}`, receivers `{R, V}`. -/
def txP2 : Tx :=
  ⟨some "p2", some 2000, [⟨some ⟨some "A"⟩⟩], [⟨some "R"⟩, ⟨some "V"⟩]⟩

end BtcAnalyzer

namespace BtcAnalyzer

/-! ## Basic list and constraint-store lemmas -/

theorem mem_insertA {a b : String} {l : List String} :
    a ∈ insertA b l ↔ a ∈ l ∨ a = b := by
  unfold insertA
  split
  · rename_i hb
    exact ⟨Or.inl, fun h => h.elim id (fun e => e ▸ hb)⟩
  · simp [List.mem_append]

theorem nodup_insertA {b : String} {l : List String} (h : l.Nodup) :
    (insertA b l).Nodup := by
  unfold insertA
  split
  · exact h
  · rename_i hb
    simp only [List.nodup_append, h, List.nodup_cons, List.not_mem_nil,
      not_false_iff, List.nodup_nil, and_true, true_and]
    intro x hx hxb
    exact hb ((List.mem_singleton.mp hxb) ▸ hx)

theorem mem_foldl_insertA :
    ∀ (L : List String) (acc : List String) (a : String),
      a ∈ L.foldl (fun acc x => insertA x acc) acc ↔ a ∈ acc ∨ a ∈ L := by
  intro L
  induction L with
  | nil => simp
  | cons x L ih =>
      intro acc a
      simp only [List.foldl_cons, ih, mem_insertA, List.mem_cons]
      tauto

theorem nodup_foldl_insertA :
    ∀ (L : List String) (acc : List String), acc.Nodup →
      (L.foldl (fun acc x => insertA x acc) acc).Nodup := by
  intro L
  induction L with
  | nil => exact fun acc h => h
  | cons x L ih =>
      intro acc h
      exact ih _ (nodup_insertA h)

theorem mem_dedupKeepFirst {l : List String} {a : String} :
    a ∈ dedupKeepFirst l ↔ a ∈ l := by
  unfold dedupKeepFirst
  rw [mem_foldl_insertA]
  simp

theorem nodup_dedupKeepFirst {l : List String} : (dedupKeepFirst l).Nodup :=
  nodup_foldl_insertA l [] List.nodup_nil

theorem mem_updateVisited {v next : List String} {a : String} :
    a ∈ updateVisited v next ↔ a ∈ v ∨ a ∈ next := by
  unfold updateVisited
  exact mem_foldl_insertA next v a

theorem windowsOf_nil (a : String) : windowsOf [] a = [] := rfl

theorem windowsOf_add_constraint (c : Constraints) (b a : String) (mn mx : Int) :
    windowsOf (add_constraint c b mn mx) a =
      if a = b then windowsOf c a ++ [(mn, mx)] else windowsOf c a := by
  have hcomm : (b = a) = (a = b) := by
    exact propext eq_comm
  induction c with
  | nil =>
      simp only [add_constraint, windowsOf, lookupC, hcomm]
      by_cases hab : a = b
      · simp [hab]
      · simp [hab]
  | cons p t ih =>
      match p with
      | (q, ws) =>
        simp only [add_constraint]
        by_cases hqb : q = b
        · simp only [if_pos hqb, windowsOf, lookupC, hqb, hcomm]
          by_cases hab : a = b
          · simp [hab]
          · simp [hab]
        · simp only [if_neg hqb, windowsOf, lookupC]
          by_cases hqa : q = a
          · have hab : ¬ a = b := fun h => hqb (hqa.trans h)
            simp [hqa, hab]
          · simp only [if_neg hqa]
            exact ih

theorem is_tx_relevant_iff (c : Constraints) (a : String) (t : Int) :
    is_tx_relevant c a t = true ↔ ∃ w ∈ windowsOf c a, w.1 ≤ t ∧ t ≤ w.2 := by
  unfold is_tx_relevant windowsOf
  cases h : lookupC c a with
  | none => simp
  | some ws => simp [List.any_eq_true]

theorem windowsOf_foldl_addc :
    ∀ (L : List String) (c0 : Constraints) (a : String) (mn mx : Int),
      windowsOf (L.foldl (fun c x => add_constraint c x mn mx) c0) a =
        windowsOf c0 a ++ List.replicate (L.count a) (mn, mx) := by
  intro L
  induction L with
  | nil => simp
  | cons x L ih =>
      intro c0 a mn mx
      simp only [List.foldl_cons]
      rw [ih, windowsOf_add_constraint]
      by_cases hax : a = x
      · subst hax
        simp [List.count_cons, List.replicate_succ, List.append_assoc,
          List.singleton_append]
      · simp [List.count_cons, hax]

theorem windowsOf_mkConstraints (addresses : List String) (sd ed : Option Int)
    (a : String) :
    windowsOf (mkConstraints addresses sd ed) a =
      if a ∈ addresses then [(startTs sd, endTs ed)] else [] := by
  unfold mkConstraints
  rw [windowsOf_foldl_addc]
  by_cases ha : a ∈ addresses
  · rw [List.count_eq_one_of_mem nodup_dedupKeepFirst (mem_dedupKeepFirst.mpr ha)]
    simp [ha, windowsOf_nil]
  · rw [List.count_eq_zero_of_not_mem (fun hc => ha (mem_dedupKeepFirst.mp hc))]
    simp [ha, windowsOf_nil]

end BtcAnalyzer

namespace BtcAnalyzer

/-! ## Edge upsert lemmas -/

theorem mem_upsertE {l : List (String × String × EdgeData)} {s r : String}
    {d : EdgeData} {e : String × String × EdgeData} :
    e ∈ upsertE l s r d → e ∈ l ∨ e = (s, r, d) := by
  induction l with
  | nil => intro h; simp only [upsertE, List.mem_singleton] at h; exact Or.inr h
  | cons e0 t ih =>
      intro h
      simp only [upsertE] at h
      split at h
      · rcases List.mem_cons.mp h with h1 | h1
        · exact Or.inr h1
        · exact Or.inl (List.mem_cons_of_mem _ h1)
      · rcases List.mem_cons.mp h with h1 | h1
        · exact Or.inl (h1 ▸ List.mem_cons_self _ _)
        · rcases ih h1 with h2 | h2
          · exact Or.inl (List.mem_cons_of_mem _ h2)
          · exact Or.inr h2

theorem find?_upsertE (l : List (String × String × EdgeData)) (s r : String)
    (d : EdgeData) :
    (upsertE l s r d).find? (fun e => e.1 = s && e.2.1 = r) = some (s, r, d) := by
  induction l with
  | nil => simp [upsertE, List.find?]
  | cons e0 t ih =>
      simp only [upsertE]
      split
      · simp [List.find?]
      · rename_i hne
        have : (decide (e0.1 = s) && decide (e0.2.1 = r)) = false := by
          rcases Decidable.not_and_iff_or_not.mp hne with h | h <;> simp [h]
        simp [List.find?, this, ih]

theorem lookupEdge_add_edge_self (g : DiGraph) (s r : String) (d : EdgeData) :
    lookupEdge (add_edge g s r d) s r = some d := by
  unfold lookupEdge add_edge
  rw [find?_upsertE]
  rfl

theorem keys_upsertE (l : List (String × String × EdgeData)) (s r : String)
    (d : EdgeData) :
    (upsertE l s r d).map (fun e => (e.1, e.2.1)) =
      if (s, r) ∈ l.map (fun e => (e.1, e.2.1)) then l.map (fun e => (e.1, e.2.1))
      else l.map (fun e => (e.1, e.2.1)) ++ [(s, r)] := by
  induction l with
  | nil => simp [upsertE]
  | cons e0 t ih =>
      simp only [upsertE]
      split
      · rename_i hk
        have hk0 : (e0.1, e0.2.1) = (s, r) := by
          rw [hk.1, hk.2]
        simp [List.map_cons, hk0]
      · rename_i hne
        have hk0 : ¬ ((s, r) = (e0.1, e0.2.1)) := by
          intro heq
          rw [Prod.mk.injEq] at heq
          exact hne ⟨heq.1.symm, heq.2.symm⟩
        simp only [List.map_cons, ih, List.mem_cons, hk0, false_or]
        split <;> simp

theorem mem_keys_upsertE (l : List (String × String × EdgeData)) (s r : String)
    (d : EdgeData) :
    (s, r) ∈ (upsertE l s r d).map (fun e => (e.1, e.2.1)) := by
  rw [keys_upsertE]
  split
  · assumption
  · simp

theorem nodup_keys_upsertE {l : List (String × String × EdgeData)} {s r : String}
    {d : EdgeData} (h : (l.map (fun e => (e.1, e.2.1))).Nodup) :
    ((upsertE l s r d).map (fun e => (e.1, e.2.1))).Nodup := by
  rw [keys_upsertE]
  split
  · exact h
  · rename_i hnm
    simp only [List.nodup_append, h, List.nodup_cons, List.not_mem_nil,
      not_false_iff, List.nodup_nil, and_true, true_and]
    intro x hx hxs
    exact hnm (List.mem_singleton.mp hxs ▸ hx)

theorem countEdge_eq_countP_keys (g : DiGraph) (s r : String) :
    countEdge g s r =
      (g.edges.map (fun e => (e.1, e.2.1))).countP (fun k => decide (k = (s, r))) := by
  unfold countEdge
  induction g.edges with
  | nil => simp
  | cons e0 t ih =>
      simp only [List.filter_cons, List.map_cons, List.countP_cons]
      by_cases h1 : e0.1 = s
      · by_cases h2 : e0.2.1 = r
        · simp [h1, h2, ih, Prod.ext_iff]
        · simp [h1, h2, ih, Prod.ext_iff]
      · simp [h1, ih, Prod.ext_iff]

theorem countP_eq_one_of_nodup_mem {α : Type} [DecidableEq α] :
    ∀ (l : List α) (x : α), l.Nodup → x ∈ l →
      l.countP (fun y => decide (y = x)) = 1 := by
  intro l
  induction l with
  | nil => intro x _ hx; simp at hx
  | cons a t ih =>
      intro x hnd hx
      simp only [List.countP_cons]
      by_cases hax : a = x
      · subst hax
        have hnotin : a ∉ t := (List.nodup_cons.mp hnd).1
        have hz : t.countP (fun y => decide (y = a)) = 0 := by
          rw [List.countP_eq_zero]
          intro b hb
          simp only [decide_eq_true_eq]
          intro hba
          exact hnotin (hba ▸ hb)
        simp [hz]
      · have hx2 : x ∈ t := by
          rcases List.mem_cons.mp hx with h | h
          · exact absurd h.symm hax
          · exact h
        have hone := ih x (List.nodup_cons.mp hnd).2 hx2
        simp [hone, hax]

theorem countEdge_add_edge (g : DiGraph) (s r : String) (d : EdgeData)
    (hnd : (keysOf g).Nodup) :
    countEdge (add_edge g s r d) s r = 1 := by
  rw [countEdge_eq_countP_keys]
  exact countP_eq_one_of_nodup_mem _ _ (nodup_keys_upsertE hnd)
    (mem_keys_upsertE _ s r d)

theorem nodup_keys_add_edge {g : DiGraph} {s r : String} {d : EdgeData}
    (h : (keysOf g).Nodup) : (keysOf (add_edge g s r d)).Nodup :=
  nodup_keys_upsertE h

/-- Last write wins: folding a nonempty batch of upserts for one ordered
pair leaves exactly one edge for the pair, carrying the last attributes
(on a graph with duplicate-free edge keys). -/
theorem foldl_add_edge_last (s r : String) :
    ∀ (ds : List EdgeData) (g : DiGraph) (d : EdgeData),
      (keysOf g).Nodup → ds.getLast? = some d →
      lookupEdge (ds.foldl (fun g2 d2 => add_edge g2 s r d2) g) s r = some d ∧
      countEdge (ds.foldl (fun g2 d2 => add_edge g2 s r d2) g) s r = 1 := by
  intro ds
  induction ds with
  | nil => intro g d _ h; simp at h
  | cons d0 t ih =>
      intro g d hnd hlast
      cases t with
      | nil =>
          have hd : d0 = d := by
            simpa [List.getLast?] using hlast
          simp only [List.foldl_cons, List.foldl_nil]
          exact hd ▸ ⟨lookupEdge_add_edge_self g s r d0, countEdge_add_edge g s r d0 hnd⟩
      | cons d1 t2 =>
          have hlast2 : (d1 :: t2).getLast? = some d := by
            rw [List.getLast?_cons_cons] at hlast
            exact hlast
          simp only [List.foldl_cons]
          have := ih (add_edge g s r d0) d (nodup_keys_add_edge hnd) hlast2
          simpa using this

/-! ## Generic fold preservation and `processPair` structure -/

theorem foldl_preserve {α β : Type} (P : β → Prop) (f : β → α → β)
    (h : ∀ b a, P b → P (f b a)) : ∀ (l : List α) (b : β), P b → P (l.foldl f b) := by
  intro l
  induction l with
  | nil => exact fun b hb => hb
  | cons x t ih => exact fun b hb => ih _ (h b x hb)

theorem processPair_graph (level maxLevel : Nat) (current : List String) (t : Int)
    (h : Option String) (st : St) (s r : String) :
    (processPair level maxLevel current t h st s r).graph =
      if s = r then st.graph else add_edge st.graph s r ⟨h, t⟩ := by
  unfold processPair
  by_cases hsr : s = r
  · simp [hsr]
  · simp only [if_neg hsr]
    by_cases hlv : level < maxLevel
    · simp only [if_pos hlv]
      split <;> split <;> rfl
    · simp [hlv, hsr]

theorem processPair_visited (level maxLevel : Nat) (current : List String) (t : Int)
    (h : Option String) (st : St) (s r : String) :
    (processPair level maxLevel current t h st s r).visited = st.visited := by
  unfold processPair
  by_cases hsr : s = r
  · simp [hsr]
  · simp only [if_neg hsr]
    by_cases hlv : level < maxLevel
    · simp only [if_pos hlv]
      split <;> split <;> rfl
    · simp [hlv]

theorem processPair_all_transactions (level maxLevel : Nat) (current : List String)
    (t : Int) (h : Option String) (st : St) (s r : String) :
    (processPair level maxLevel current t h st s r).all_transactions =
      st.all_transactions := by
  unfold processPair
  by_cases hsr : s = r
  · simp [hsr]
  · simp only [if_neg hsr]
    by_cases hlv : level < maxLevel
    · simp only [if_pos hlv]
      split <;> split <;> rfl
    · simp [hlv]

theorem processPair_frozen_of_ge (level maxLevel : Nat) (current : List String)
    (t : Int) (h : Option String) (st : St) (s r : String)
    (hlv : ¬ level < maxLevel) :
    (processPair level maxLevel current t h st s r).nextLevel = st.nextLevel ∧
    (processPair level maxLevel current t h st s r).address_constraints =
      st.address_constraints := by
  unfold processPair
  by_cases hsr : s = r
  · simp [hsr]
  · simp [hsr, hlv]

end BtcAnalyzer

namespace BtcAnalyzer

/-! ## Pure characterisation of `processPair` on constraints and frontier -/

theorem processPair_cons (level maxLevel : Nat) (current : List String) (t : Int)
    (h : Option String) (st : St) (s r : String) :
    (processPair level maxLevel current t h st s r).address_constraints =
      if s = r then st.address_constraints
      else if level < maxLevel then
        (if r ∉ st.visited ∧ r ∉ current then
          add_constraint
            (if s ∉ st.visited ∧ s ∉ current then
              add_constraint st.address_constraints s (t - one_week) (t + one_week)
             else st.address_constraints)
            r (t - one_week) (t + one_week)
         else
          (if s ∉ st.visited ∧ s ∉ current then
            add_constraint st.address_constraints s (t - one_week) (t + one_week)
           else st.address_constraints))
      else st.address_constraints := by
  unfold processPair
  dsimp only
  split_ifs <;> rfl

theorem processPair_next (level maxLevel : Nat) (current : List String) (t : Int)
    (h : Option String) (st : St) (s r : String) :
    (processPair level maxLevel current t h st s r).nextLevel =
      if s = r then st.nextLevel
      else if level < maxLevel then
        (if r ∉ st.visited ∧ r ∉ current then
          insertA r
            (if s ∉ st.visited ∧ s ∉ current then insertA s st.nextLevel
             else st.nextLevel)
         else
          (if s ∉ st.visited ∧ s ∉ current then insertA s st.nextLevel
           else st.nextLevel))
      else st.nextLevel := by
  unfold processPair
  dsimp only
  split_ifs <;> rfl

theorem processPair_windows (level maxLevel : Nat) (current : List String) (t : Int)
    (h : Option String) (st : St) (s r a : String)
    (hav : a ∉ st.visited) (hac : a ∉ current) :
    windowsOf (processPair level maxLevel current t h st s r).address_constraints a =
      windowsOf st.address_constraints a ++
        (if ¬ s = r ∧ level < maxLevel ∧ (s = a ∨ r = a)
         then [(t - one_week, t + one_week)] else []) := by
  rw [processPair_cons]
  by_cases hsr : s = r
  · simp [hsr]
  · by_cases hlv : level < maxLevel
    · simp only [if_neg hsr, if_pos hlv]
      by_cases hsa : s = a
      · have hra : ¬ r = a := fun he => hsr (hsa.trans he.symm)
        have haor : ¬ a = r := fun he => hra he.symm
        have hscond : s ∉ st.visited ∧ s ∉ current := by
          rw [hsa]; exact ⟨hav, hac⟩
        have has : a = s := hsa.symm
        have hcond : (¬ s = r ∧ level < maxLevel ∧ (s = a ∨ r = a)) :=
          ⟨hsr, hlv, Or.inl hsa⟩
        rw [if_pos hcond]
        by_cases hrcond : r ∉ st.visited ∧ r ∉ current
        · rw [if_pos hrcond, if_pos hscond, windowsOf_add_constraint,
            if_neg haor, windowsOf_add_constraint, if_pos has]
        · rw [if_neg hrcond, if_pos hscond, windowsOf_add_constraint, if_pos has]
      · by_cases hra : r = a
        · have hrcond : r ∉ st.visited ∧ r ∉ current := by
            rw [hra]; exact ⟨hav, hac⟩
          have har : a = r := hra.symm
          have hnas : ¬ a = s := fun he => hsa he.symm
          have hcond : (¬ s = r ∧ level < maxLevel ∧ (s = a ∨ r = a)) :=
            ⟨hsr, hlv, Or.inr hra⟩
          rw [if_pos hcond, if_pos hrcond]
          by_cases hscond : s ∉ st.visited ∧ s ∉ current
          · rw [if_pos hscond, windowsOf_add_constraint, if_pos har,
              windowsOf_add_constraint, if_neg hnas]
          · rw [if_neg hscond, windowsOf_add_constraint, if_pos har]
        · have hnas : ¬ a = s := fun he => hsa he.symm
          have hnar : ¬ a = r := fun he => hra he.symm
          have hcond : ¬ (¬ s = r ∧ level < maxLevel ∧ (s = a ∨ r = a)) := by
            intro hc
            rcases hc.2.2 with h1 | h1
            · exact hsa h1
            · exact hra h1
          simp only [if_neg hcond, List.append_nil]
          by_cases hscond : s ∉ st.visited ∧ s ∉ current <;>
            by_cases hrcond : r ∉ st.visited ∧ r ∉ current <;>
              simp [hscond, hrcond, windowsOf_add_constraint, hnas, hnar]
    · simp [hsr, hlv]

theorem processPair_next_mem (level maxLevel : Nat) (current : List String) (t : Int)
    (h : Option String) (st : St) (s r a : String)
    (hav : a ∉ st.visited) (hac : a ∉ current) :
    (a ∈ (processPair level maxLevel current t h st s r).nextLevel ↔
      a ∈ st.nextLevel ∨ (¬ s = r ∧ level < maxLevel ∧ (s = a ∨ r = a))) := by
  rw [processPair_next]
  by_cases hsr : s = r
  · simp [hsr]
  · by_cases hlv : level < maxLevel
    · simp only [if_neg hsr, if_pos hlv]
      by_cases hsa : s = a
      · have has : a = s := hsa.symm
        have hscond : s ∉ st.visited ∧ s ∉ current := by
          rw [hsa]; exact ⟨hav, hac⟩
        have hcond : (¬ s = r ∧ level < maxLevel ∧ (s = a ∨ r = a)) :=
          ⟨hsr, hlv, Or.inl hsa⟩
        by_cases hrcond : r ∉ st.visited ∧ r ∉ current
        · rw [if_pos hrcond, if_pos hscond]
          simp only [mem_insertA]
          exact iff_of_true (Or.inl (Or.inr has)) (Or.inr hcond)
        · rw [if_neg hrcond, if_pos hscond]
          simp only [mem_insertA]
          exact iff_of_true (Or.inr has) (Or.inr hcond)
      · by_cases hra : r = a
        · have har : a = r := hra.symm
          have hrcond : r ∉ st.visited ∧ r ∉ current := by
            rw [hra]; exact ⟨hav, hac⟩
          have hcond : (¬ s = r ∧ level < maxLevel ∧ (s = a ∨ r = a)) :=
            ⟨hsr, hlv, Or.inr hra⟩
          rw [if_pos hrcond]
          by_cases hscond : s ∉ st.visited ∧ s ∉ current
          · rw [if_pos hscond]
            simp only [mem_insertA]
            exact iff_of_true (Or.inr har) (Or.inr hcond)
          · rw [if_neg hscond]
            simp only [mem_insertA]
            exact iff_of_true (Or.inr har) (Or.inr hcond)
        · have hnas : ¬ a = s := fun he => hsa he.symm
          have hnar : ¬ a = r := fun he => hra he.symm
          have hcond : ¬ (¬ s = r ∧ level < maxLevel ∧ (s = a ∨ r = a)) := by
            intro hc
            rcases hc.2.2 with h1 | h1
            · exact hsa h1
            · exact hra h1
          by_cases hscond : s ∉ st.visited ∧ s ∉ current <;>
            by_cases hrcond : r ∉ st.visited ∧ r ∉ current <;>
              simp [hscond, hrcond, mem_insertA, hnas, hnar, hcond]
    · simp [hsr, hlv]

end BtcAnalyzer

namespace BtcAnalyzer

/-! ## Fold lemmas over receivers and senders -/

theorem foldR_visited (level maxLevel : Nat) (current : List String) (t : Int)
    (h : Option String) (s : String) (R : List String) :
    ∀ st : St,
      (R.foldl (fun b r => processPair level maxLevel current t h b s r) st).visited =
        st.visited := by
  induction R with
  | nil => intro st; rfl
  | cons r R ih =>
      intro st
      simp only [List.foldl_cons]
      rw [ih]
      exact processPair_visited level maxLevel current t h st s r

theorem foldR_windows (level maxLevel : Nat) (current : List String) (t : Int)
    (h : Option String) (s a : String) (R : List String) :
    ∀ st : St, a ∉ st.visited → a ∉ current →
      windowsOf
        (R.foldl (fun b r => processPair level maxLevel current t h b s r)
          st).address_constraints a =
      windowsOf st.address_constraints a ++
        List.replicate
          ((R.filter
            (fun r => decide (¬ s = r ∧ level < maxLevel ∧ (s = a ∨ r = a)))).length)
          (t - one_week, t + one_week) := by
  induction R with
  | nil => intro st _ _; simp
  | cons r R ih =>
      intro st hav hac
      simp only [List.foldl_cons, List.filter_cons]
      have hv2 : a ∉ (processPair level maxLevel current t h st s r).visited := by
        rw [processPair_visited]; exact hav
      rw [ih _ hv2 hac, processPair_windows level maxLevel current t h st s r a hav hac]
      by_cases hc : ¬ s = r ∧ level < maxLevel ∧ (s = a ∨ r = a)
      · simp [hc, List.replicate_succ, List.append_assoc]
      · simp [hc]

theorem foldR_next (level maxLevel : Nat) (current : List String) (t : Int)
    (h : Option String) (s a : String) (R : List String) :
    ∀ st : St, a ∉ st.visited → a ∉ current →
      (a ∈ (R.foldl (fun b r => processPair level maxLevel current t h b s r)
          st).nextLevel ↔
        a ∈ st.nextLevel ∨
          ∃ r2 ∈ R, ¬ s = r2 ∧ level < maxLevel ∧ (s = a ∨ r2 = a)) := by
  induction R with
  | nil => intro st _ _; simp
  | cons r R ih =>
      intro st hav hac
      simp only [List.foldl_cons]
      have hv2 : a ∉ (processPair level maxLevel current t h st s r).visited := by
        rw [processPair_visited]; exact hav
      rw [ih _ hv2 hac, processPair_next_mem level maxLevel current t h st s r a hav hac]
      simp only [List.mem_cons]
      constructor
      · rintro ((h1 | h1) | ⟨r2, hr2, h1⟩)
        · exact Or.inl h1
        · exact Or.inr ⟨r, Or.inl rfl, h1⟩
        · exact Or.inr ⟨r2, Or.inr hr2, h1⟩
      · rintro (h1 | ⟨r2, hr2, h1⟩)
        · exact Or.inl (Or.inl h1)
        · rcases hr2 with h3 | h3
          · exact Or.inl (Or.inr (h3 ▸ h1))
          · exact Or.inr ⟨r2, h3, h1⟩

theorem foldS_visited (level maxLevel : Nat) (current : List String) (t : Int)
    (h : Option String) (R : List String) (S : List String) :
    ∀ st : St,
      (S.foldl
        (fun acc s => R.foldl (fun b r => processPair level maxLevel current t h b s r) acc)
        st).visited = st.visited := by
  induction S with
  | nil => intro st; rfl
  | cons s S ih =>
      intro st
      simp only [List.foldl_cons]
      rw [ih]
      exact foldR_visited level maxLevel current t h s R st

theorem foldS_windows (level maxLevel : Nat) (current : List String) (t : Int)
    (h : Option String) (a : String) (R : List String) (S : List String) :
    ∀ st : St, a ∉ st.visited → a ∉ current →
      windowsOf
        (S.foldl
          (fun acc s =>
            R.foldl (fun b r => processPair level maxLevel current t h b s r) acc)
          st).address_constraints a =
      windowsOf st.address_constraints a ++
        List.replicate
          ((S.map (fun s =>
            (R.filter
              (fun r => decide (¬ s = r ∧ level < maxLevel ∧ (s = a ∨ r = a)))).length)).sum)
          (t - one_week, t + one_week) := by
  induction S with
  | nil => intro st _ _; simp
  | cons s S ih =>
      intro st hav hac
      simp only [List.foldl_cons, List.map_cons, List.sum_cons]
      have hv2 : a ∉ (R.foldl (fun b r => processPair level maxLevel current t h b s r)
          st).visited := by
        rw [foldR_visited]; exact hav
      rw [ih _ hv2 hac, foldR_windows level maxLevel current t h s a R st hav hac]
      rw [List.replicate_add, List.append_assoc]

theorem foldS_next (level maxLevel : Nat) (current : List String) (t : Int)
    (h : Option String) (a : String) (R : List String) (S : List String) :
    ∀ st : St, a ∉ st.visited → a ∉ current →
      (a ∈ (S.foldl
          (fun acc s =>
            R.foldl (fun b r => processPair level maxLevel current t h b s r) acc)
          st).nextLevel ↔
        a ∈ st.nextLevel ∨
          ∃ s2 ∈ S, ∃ r2 ∈ R, ¬ s2 = r2 ∧ level < maxLevel ∧ (s2 = a ∨ r2 = a)) := by
  induction S with
  | nil => intro st _ _; simp
  | cons s S ih =>
      intro st hav hac
      simp only [List.foldl_cons]
      have hv2 : a ∉ (R.foldl (fun b r => processPair level maxLevel current t h b s r)
          st).visited := by
        rw [foldR_visited]; exact hav
      rw [ih _ hv2 hac, foldR_next level maxLevel current t h s a R st hav hac]
      simp only [List.mem_cons]
      constructor
      · rintro ((h1 | ⟨r2, hr2, h1⟩) | ⟨s2, hs2, hrest⟩)
        · exact Or.inl h1
        · exact Or.inr ⟨s, Or.inl rfl, r2, hr2, h1⟩
        · exact Or.inr ⟨s2, Or.inr hs2, hrest⟩
      · rintro (h1 | ⟨s2, hs2, hrest⟩)
        · exact Or.inl (Or.inl h1)
        · rcases hs2 with h3 | h3
          · exact Or.inl (Or.inr (h3 ▸ hrest))
          · exact Or.inr ⟨s2, h3, hrest⟩

/-! ## The sender/receiver sets are duplicate-free -/

theorem nodup_senders_aux :
    ∀ (l : List TxInput) (acc : List String), acc.Nodup →
      (l.foldl
        (fun acc inp =>
          match inp.prev_out with
          | none => acc
          | some po =>
              match po.addr with
              | none => acc
              | some a => if a = "" then acc else insertA a acc)
        acc).Nodup := by
  intro l
  induction l with
  | nil => exact fun acc h => h
  | cons i t ih =>
      intro acc hacc
      simp only [List.foldl_cons]
      apply ih
      rcases hpo : i.prev_out with _ | po
      · simpa [hpo] using hacc
      · rcases hpa : po.addr with _ | a
        · simp only [hpo, hpa]
          exact hacc
        · simp only [hpo, hpa]
          split
          · exact hacc
          · exact nodup_insertA hacc

theorem nodup_txSenders (tx : Tx) : (txSenders tx).Nodup :=
  nodup_senders_aux tx.inputs [] List.nodup_nil

theorem nodup_receivers_aux :
    ∀ (l : List TxOut) (acc : List String), acc.Nodup →
      (l.foldl
        (fun acc o =>
          match o.addr with
          | none => acc
          | some a => if a = "" then acc else insertA a acc)
        acc).Nodup := by
  intro l
  induction l with
  | nil => exact fun acc h => h
  | cons o t ih =>
      intro acc hacc
      simp only [List.foldl_cons]
      apply ih
      rcases hpa : o.addr with _ | a
      · simpa [hpa] using hacc
      · simp only [hpa]
        split
        · exact hacc
        · exact nodup_insertA hacc

theorem nodup_txReceivers (tx : Tx) : (txReceivers tx).Nodup :=
  nodup_receivers_aux tx.out [] List.nodup_nil

end BtcAnalyzer

namespace BtcAnalyzer

/-! ## Counting qualifying sender/receiver pairs of a transaction -/

theorem length_filter_eq_mem (a : String) :
    ∀ (R : List String), R.Nodup →
      (R.filter (fun r => decide (r = a))).length = if a ∈ R then 1 else 0 := by
  intro R
  induction R with
  | nil => simp
  | cons r R ih =>
      intro hnd
      simp only [List.filter_cons]
      by_cases hra : r = a
      · subst hra
        have hnotin : r ∉ R := (List.nodup_cons.mp hnd).1
        have hz : (R.filter (fun x => decide (x = r))).length = 0 := by
          rw [List.length_eq_zero, List.filter_eq_nil_iff]
          intro b hb
          simp only [decide_eq_true_eq]
          intro hbr
          exact hnotin (hbr ▸ hb)
        simp [hz]
      · have hna : ¬ a = r := fun he => hra he.symm
        simp [hra, hna, ih (List.nodup_cons.mp hnd).2, List.mem_cons]

theorem sum_pair_filter (a : String) (R : List String) (hR : R.Nodup) :
    ∀ (S : List String), S.Nodup →
      (S.map (fun s =>
        (R.filter (fun r => decide (¬ s = r ∧ (s = a ∨ r = a)))).length)).sum =
      (if a ∈ S then (R.filter (fun r => decide (¬ r = a))).length else 0) +
      (if a ∈ R then (S.filter (fun s => decide (¬ s = a))).length else 0) := by
  intro S
  induction S with
  | nil => simp
  | cons s S ih =>
      intro hnd
      have hndS : S.Nodup := (List.nodup_cons.mp hnd).2
      have hnotin : s ∉ S := (List.nodup_cons.mp hnd).1
      simp only [List.map_cons, List.sum_cons, List.filter_cons]
      rw [ih hndS]
      by_cases hsa : s = a
      · have hhead :
            R.filter (fun r => decide (¬ s = r ∧ (s = a ∨ r = a))) =
              R.filter (fun r => decide (¬ r = a)) := by
          apply List.filter_congr
          intro r _
          apply decide_eq_decide.mpr
          constructor
          · intro hh hra
            exact hh.1 (hsa.trans hra.symm)
          · intro hh
            exact ⟨fun hsr => hh (hsr.symm.trans hsa), Or.inl hsa⟩
        have hanS : a ∉ S := fun hmem => hnotin (hsa.symm ▸ hmem)
        have hmemT : a ∈ s :: S := List.mem_cons.mpr (Or.inl hsa.symm)
        have hdecf : (decide (¬ s = a)) = false := by simp [hsa]
        rw [hhead]
        simp [hanS, hmemT, hdecf]
      · have hhead :
            R.filter (fun r => decide (¬ s = r ∧ (s = a ∨ r = a))) =
              R.filter (fun r => decide (r = a)) := by
          apply List.filter_congr
          intro r _
          apply decide_eq_decide.mpr
          constructor
          · intro hh
            rcases hh.2 with h1 | h1
            · exact absurd h1 hsa
            · exact h1
          · intro hh
            exact ⟨fun hsr => hsa (hsr.trans hh), Or.inr hh⟩
        rw [hhead, length_filter_eq_mem a R hR]
        have hnas : ¬ a = s := fun he => hsa he.symm
        have hdect : (decide (¬ s = a)) = true := by simp [hsa]
        by_cases haR : a ∈ R <;> by_cases haS : a ∈ S <;>
          simp [haR, haS, hnas, hdect, List.mem_cons] <;> omega

theorem txPairCount_pos_iff (tx : Tx) (a : String) :
    0 < txPairCount tx a ↔
      ∃ s ∈ txSenders tx, ∃ r ∈ txReceivers tx, ¬ s = r ∧ (s = a ∨ r = a) := by
  unfold txPairCount
  constructor
  · intro hpos
    by_contra hno
    push_neg at hno
    have hz : ((txSenders tx).map (fun s =>
        ((txReceivers tx).filter
          (fun r => decide (¬ s = r ∧ (s = a ∨ r = a)))).length)).sum = 0 := by
      apply List.sum_eq_zero
      intro x hx
      rcases List.mem_map.mp hx with ⟨s, hs, rfl⟩
      rw [List.length_eq_zero, List.filter_eq_nil_iff]
      intro r hr
      simp only [decide_eq_true_eq]
      intro hp
      rcases hp.2 with h1 | h1
      · exact (hno s hs r hr hp.1).1 h1
      · exact (hno s hs r hr hp.1).2 h1
    omega
  · rintro ⟨s, hs, r, hr, hp⟩
    have hmemf : r ∈ (txReceivers tx).filter
        (fun r => decide (¬ s = r ∧ (s = a ∨ r = a))) := by
      rw [List.mem_filter]
      exact ⟨hr, by simpa using hp⟩
    have hlen : 0 < ((txReceivers tx).filter
        (fun r => decide (¬ s = r ∧ (s = a ∨ r = a)))).length :=
      List.length_pos.mpr (List.ne_nil_of_mem hmemf)
    have hle : ((txReceivers tx).filter
        (fun r => decide (¬ s = r ∧ (s = a ∨ r = a)))).length ≤
        ((txSenders tx).map (fun s =>
          ((txReceivers tx).filter
            (fun r => decide (¬ s = r ∧ (s = a ∨ r = a)))).length)).sum := by
      apply List.single_le_sum (fun x _ => Nat.zero_le x)
      exact List.mem_map.mpr ⟨s, hs, rfl⟩
    omega

end BtcAnalyzer

namespace BtcAnalyzer

/-! ## `processTx` characterisations -/

theorem processTx_visited (level maxLevel : Nat) (current batch : List String)
    (st : St) (tx : Tx) :
    (processTx level maxLevel current batch st tx).visited = st.visited := by
  unfold processTx
  by_cases hrel : txRelevant st.address_constraints batch tx
  · rw [if_pos hrel]
    dsimp only
    rw [foldS_visited]
  · rw [if_neg hrel]

theorem processTx_windows (level maxLevel : Nat) (current batch : List String)
    (st : St) (tx : Tx) (a : String)
    (hrel : txRelevant st.address_constraints batch tx = true)
    (hav : a ∉ st.visited) (hac : a ∉ current) (hlv : level < maxLevel) :
    windowsOf (processTx level maxLevel current batch st tx).address_constraints a =
      windowsOf st.address_constraints a ++
        List.replicate (txPairCount tx a)
          (txTime tx - one_week, txTime tx + one_week) := by
  have hsum : ((txSenders tx).map (fun s =>
      ((txReceivers tx).filter
        (fun r => decide (¬ s = r ∧ level < maxLevel ∧ (s = a ∨ r = a)))).length)).sum =
      txPairCount tx a := by
    unfold txPairCount
    congr 1
    apply List.map_congr_left
    intro s _
    congr 1
    apply List.filter_congr
    intro r _
    apply decide_eq_decide.mpr
    constructor
    · intro hh
      exact ⟨hh.1, hh.2.2⟩
    · intro hh
      exact ⟨hh.1, hlv, hh.2⟩
  unfold processTx
  rw [if_pos hrel]
  dsimp only
  rw [foldS_windows level maxLevel current (txTime tx) tx.hash a (txReceivers tx)
    (txSenders tx) { st with all_transactions := st.all_transactions ++ [tx] }
    (by exact hav) (by exact hac)]
  rw [hsum]

theorem processTx_next_mem (level maxLevel : Nat) (current batch : List String)
    (st : St) (tx : Tx) (a : String)
    (hrel : txRelevant st.address_constraints batch tx = true)
    (hav : a ∉ st.visited) (hac : a ∉ current) (hlv : level < maxLevel) :
    (a ∈ (processTx level maxLevel current batch st tx).nextLevel ↔
      a ∈ st.nextLevel ∨ 0 < txPairCount tx a) := by
  unfold processTx
  rw [if_pos hrel]
  dsimp only
  rw [foldS_next level maxLevel current (txTime tx) tx.hash a (txReceivers tx)
    (txSenders tx) { st with all_transactions := st.all_transactions ++ [tx] }
    (by exact hav) (by exact hac)]
  rw [txPairCount_pos_iff]
  constructor
  · rintro (h1 | ⟨s2, hs2, r2, hr2, hc⟩)
    · exact Or.inl h1
    · exact Or.inr ⟨s2, hs2, r2, hr2, hc.1, hc.2.2⟩
  · rintro (h1 | ⟨s2, hs2, r2, hr2, hc1, hc2⟩)
    · exact Or.inl h1
    · exact Or.inr ⟨s2, hs2, r2, hr2, hc1, hlv, hc2⟩

theorem processTx_frozen_of_ge (level maxLevel : Nat) (current batch : List String)
    (st : St) (tx : Tx) (hlv : ¬ level < maxLevel) :
    (processTx level maxLevel current batch st tx).nextLevel = st.nextLevel ∧
    (processTx level maxLevel current batch st tx).address_constraints =
      st.address_constraints := by
  unfold processTx
  by_cases hrel : txRelevant st.address_constraints batch tx
  · rw [if_pos hrel]
    dsimp only
    have hP : ∀ (b2 : St) (s r : String),
        b2.nextLevel = st.nextLevel ∧
          b2.address_constraints = st.address_constraints →
        ((processPair level maxLevel current (txTime tx) tx.hash b2 s r).nextLevel =
            st.nextLevel ∧
          (processPair level maxLevel current (txTime tx) tx.hash b2 s r).address_constraints =
            st.address_constraints) := by
      intro b2 s r hb2
      have h2 := processPair_frozen_of_ge level maxLevel current (txTime tx)
        tx.hash b2 s r hlv
      exact ⟨h2.1.trans hb2.1, h2.2.trans hb2.2⟩
    exact foldl_preserve
      (fun b => b.nextLevel = st.nextLevel ∧
        b.address_constraints = st.address_constraints)
      _
      (fun b s hb => foldl_preserve
        (fun b => b.nextLevel = st.nextLevel ∧
          b.address_constraints = st.address_constraints)
        _ (fun b2 r hb2 => hP b2 s r hb2) (txReceivers tx) b hb)
      (txSenders tx) { st with all_transactions := st.all_transactions ++ [tx] }
      ⟨rfl, rfl⟩
  · rw [if_neg hrel]
    exact ⟨rfl, rfl⟩

theorem foldR_graph (level maxLevel : Nat) (current : List String) (t : Int)
    (h : Option String) (s : String) (R : List String) :
    ∀ st : St,
      (R.foldl (fun b r => processPair level maxLevel current t h b s r) st).graph =
        R.foldl (fun g r => if s = r then g else add_edge g s r ⟨h, t⟩) st.graph := by
  induction R with
  | nil => intro st; rfl
  | cons r R ih =>
      intro st
      simp only [List.foldl_cons]
      rw [ih, processPair_graph]

theorem foldS_graph (level maxLevel : Nat) (current : List String) (t : Int)
    (h : Option String) (R : List String) (S : List String) :
    ∀ st : St,
      (S.foldl
        (fun acc s => R.foldl (fun b r => processPair level maxLevel current t h b s r) acc)
        st).graph =
      S.foldl
        (fun g s => R.foldl (fun g2 r => if s = r then g2 else add_edge g2 s r ⟨h, t⟩) g)
        st.graph := by
  induction S with
  | nil => intro st; rfl
  | cons s S ih =>
      intro st
      simp only [List.foldl_cons]
      rw [ih, foldR_graph]

theorem processTx_graph (level maxLevel : Nat) (current batch : List String)
    (st : St) (tx : Tx) :
    (processTx level maxLevel current batch st tx).graph =
      if txRelevant st.address_constraints batch tx then txGraphUpdate tx st.graph
      else st.graph := by
  unfold processTx txGraphUpdate
  by_cases hrel : txRelevant st.address_constraints batch tx
  · rw [if_pos hrel, if_pos hrel]
    dsimp only
    rw [foldS_graph]
  · rw [if_neg hrel, if_neg hrel]

end BtcAnalyzer

namespace BtcAnalyzer

/-! ## Level- and run-level lemmas -/

theorem runLevel_visited (httpGet : Nat → List String → HttpResult)
    (level maxLevel : Nat) (current : List String) (st : St) :
    (runLevel httpGet level maxLevel current st).visited = st.visited := by
  unfold runLevel
  exact foldl_preserve (fun b => b.visited = st.visited) _
    (fun b batch hb =>
      foldl_preserve (fun b2 => b2.visited = st.visited) _
        (fun b2 tx hb2 =>
          (processTx_visited level maxLevel current batch b2 tx).trans hb2)
        _ b hb)
    (chunk20 current) st rfl

theorem runLevel_frozen_of_ge (httpGet : Nat → List String → HttpResult)
    (level maxLevel : Nat) (current : List String) (st : St)
    (hlv : ¬ level < maxLevel) :
    (runLevel httpGet level maxLevel current st).nextLevel = st.nextLevel ∧
    (runLevel httpGet level maxLevel current st).address_constraints =
      st.address_constraints := by
  unfold runLevel
  exact foldl_preserve
    (fun b => b.nextLevel = st.nextLevel ∧
      b.address_constraints = st.address_constraints) _
    (fun b batch hb =>
      foldl_preserve
        (fun b2 => b2.nextLevel = st.nextLevel ∧
          b2.address_constraints = st.address_constraints) _
        (fun b2 tx hb2 =>
          let h2 := processTx_frozen_of_ge level maxLevel current batch b2 tx hlv
          ⟨h2.1.trans hb2.1, h2.2.trans hb2.2⟩)
        _ b hb)
    (chunk20 current) st ⟨rfl, rfl⟩

theorem txGraphUpdate_preserve (P : DiGraph → Prop) (hP : GPreserved P)
    (tx : Tx) (g : DiGraph) (hg : P g) : P (txGraphUpdate tx g) := by
  unfold txGraphUpdate
  apply foldl_preserve P _ _ (txSenders tx) g hg
  intro g2 s hg2
  apply foldl_preserve P _ _ (txReceivers tx) g2 hg2
  intro g3 r hg3
  by_cases hsr : s = r
  · simpa [hsr] using hg3
  · simpa [hsr] using hP g3 s r ⟨tx.hash, txTime tx⟩ hsr hg3

theorem processTx_graph_preserve (P : DiGraph → Prop) (hP : GPreserved P)
    (level maxLevel : Nat) (current batch : List String) (st : St) (tx : Tx)
    (hg : P st.graph) :
    P (processTx level maxLevel current batch st tx).graph := by
  rw [processTx_graph]
  split
  · exact txGraphUpdate_preserve P hP tx st.graph hg
  · exact hg

theorem runLevel_graph_preserve (P : DiGraph → Prop) (hP : GPreserved P)
    (httpGet : Nat → List String → HttpResult) (level maxLevel : Nat)
    (current : List String) (st : St) (hg : P st.graph) :
    P (runLevel httpGet level maxLevel current st).graph := by
  unfold runLevel
  apply foldl_preserve (fun b => P b.graph) _ _ (chunk20 current) st hg
  intro b batch hb
  apply foldl_preserve (fun b2 => P b2.graph) _ _ _ b hb
  intro b2 tx hb2
  exact processTx_graph_preserve P hP level maxLevel current batch b2 tx hb2

theorem loop_graph_preserve (P : DiGraph → Prop) (hP : GPreserved P)
    (httpGet : Nat → List String → HttpResult) (maxLevel : Nat) :
    ∀ (fuel level : Nat) (current : List String) (st : St), P st.graph →
      P ((loop httpGet maxLevel fuel level current st).1).graph := by
  intro fuel
  induction fuel with
  | zero => intro level current st hg; exact hg
  | succ fuel ih =>
      intro level current st hg
      by_cases hc : current = []
      · simpa [loop, hc] using hg
      · simp only [loop, if_neg hc]
        apply ih
        exact runLevel_graph_preserve P hP httpGet level maxLevel current _ hg

theorem analyze_graph_preserve (P : DiGraph → Prop) (hP : GPreserved P)
    (addresses : List String) (maxLevel : Nat) (sd ed : Option Int)
    (httpGet : Nat → List String → HttpResult)
    (hg : P ⟨dedupKeepFirst addresses, []⟩) :
    P ((analyze addresses maxLevel sd ed httpGet).1).graph := by
  unfold analyze
  exact loop_graph_preserve P hP httpGet maxLevel (maxLevel + 1) 0
    (dedupKeepFirst addresses) _ hg

/-! ## Trace lemmas -/

theorem loop_trace_frontier_visited (httpGet : Nat → List String → HttpResult)
    (maxLevel : Nat) :
    ∀ (fuel level : Nat) (current : List String) (st : St),
      (∀ x ∈ current, x ∈ st.visited) →
      ∀ entry ∈ (loop httpGet maxLevel fuel level current st).2,
        ∀ x ∈ entry.frontier, x ∈ entry.stStart.visited := by
  intro fuel
  induction fuel with
  | zero =>
      intro level current st _ entry hentry
      simp [loop] at hentry
  | succ fuel ih =>
      intro level current st hcur entry hentry
      by_cases hc : current = []
      · simp [loop, hc] at hentry
      · simp only [loop, if_neg hc, List.mem_cons] at hentry
        rcases hentry with hhead | htail
        · subst hhead
          exact hcur
        · refine ih (level + 1) _ _ ?_ entry htail
          intro x hx
          rw [mem_updateVisited]
          exact Or.inr hx

theorem loop_maxLevel_zero_next (httpGet : Nat → List String → HttpResult) :
    ∀ (fuel level : Nat) (current : List String) (st : St),
      ∀ entry ∈ (loop httpGet 0 fuel level current st).2, entry.next = [] := by
  intro fuel
  induction fuel with
  | zero =>
      intro level current st entry hentry
      simp [loop] at hentry
  | succ fuel ih =>
      intro level current st entry hentry
      by_cases hc : current = []
      · simp [loop, hc] at hentry
      · simp only [loop, if_neg hc, List.mem_cons] at hentry
        rcases hentry with hhead | htail
        · subst hhead
          exact (runLevel_frozen_of_ge httpGet level 0 current
            { st with nextLevel := [] } (Nat.not_lt_zero level)).1
        · exact ih (level + 1) _ _ entry htail

end BtcAnalyzer

namespace BtcAnalyzer

/-! ## Reachability: the iterated closure computes `ReflTransGen` -/

theorem mem_succsF {g : DiGraph} {x y : String} :
    y ∈ succsF g x ↔ edgeRel g x y := by
  unfold succsF edgeRel
  simp only [List.mem_toFinset, List.mem_map, List.mem_filter, decide_eq_true_eq]
  constructor
  · rintro ⟨e, ⟨he, hx⟩, hy⟩
    refine ⟨e.2.2, ?_⟩
    have : (e.1, e.2.1, e.2.2) = e := rfl
    rw [← this, hx, hy] at he
    exact he
  · rintro ⟨d, hd⟩
    exact ⟨(x, y, d), ⟨hd, rfl⟩, rfl⟩

theorem mem_edgeTargets {g : DiGraph} {x y : String} (h : edgeRel g x y) :
    y ∈ edgeTargets g := by
  unfold edgeTargets
  rcases h with ⟨d, hd⟩
  simp only [List.mem_toFinset, List.mem_map]
  exact ⟨(x, y, d), hd, rfl⟩

theorem mem_stepF {g : DiGraph} {cur : Finset String} {x : String} :
    x ∈ stepF g cur ↔ x ∈ cur ∨ ∃ y ∈ cur, edgeRel g y x := by
  unfold stepF
  simp only [Finset.mem_union, Finset.mem_biUnion]
  constructor
  · rintro (h | ⟨y, hy, hx⟩)
    · exact Or.inl h
    · exact Or.inr ⟨y, hy, mem_succsF.mp hx⟩
  · rintro (h | ⟨y, hy, hx⟩)
    · exact Or.inl h
    · exact Or.inr ⟨y, hy, mem_succsF.mpr hx⟩

theorem subset_stepF (g : DiGraph) (cur : Finset String) : cur ⊆ stepF g cur :=
  Finset.subset_union_left

theorem stepF_subset_univ {g : DiGraph} {a : String} {cur : Finset String}
    (h : cur ⊆ insert a (edgeTargets g)) :
    stepF g cur ⊆ insert a (edgeTargets g) := by
  intro x hx
  rcases mem_stepF.mp hx with h1 | ⟨y, hy, h1⟩
  · exact h h1
  · exact Finset.mem_insert_of_mem (mem_edgeTargets h1)

theorem iterF_sound {g : DiGraph} {a : String} :
    ∀ (n : Nat) (cur : Finset String),
      (∀ x ∈ cur, Reaches g a x) → ∀ x ∈ iterF g n cur, Reaches g a x := by
  intro n
  induction n with
  | zero => exact fun cur h => h
  | succ n ih =>
      intro cur h x hx
      refine ih (stepF g cur) ?_ x hx
      intro y hy
      rcases mem_stepF.mp hy with h1 | ⟨z, hz, h1⟩
      · exact h y h1
      · exact (h z hz).tail h1

theorem subset_iterF (g : DiGraph) :
    ∀ (n : Nat) (cur : Finset String), cur ⊆ iterF g n cur := by
  intro n
  induction n with
  | zero => exact fun cur => Finset.Subset.refl cur
  | succ n ih =>
      intro cur
      exact (subset_stepF g cur).trans (ih (stepF g cur))

theorem iterF_of_fixed {g : DiGraph} {cur : Finset String}
    (h : stepF g cur = cur) : ∀ n, iterF g n cur = cur := by
  intro n
  induction n with
  | zero => rfl
  | succ n ih =>
      show iterF g n (stepF g cur) = cur
      rw [h]
      exact ih

theorem iterF_fixed_reached {g : DiGraph} {a : String} :
    ∀ (n : Nat) (cur : Finset String),
      cur ⊆ insert a (edgeTargets g) →
      (insert a (edgeTargets g)).card ≤ cur.card + n →
      stepF g (iterF g n cur) = iterF g n cur := by
  intro n
  induction n with
  | zero =>
      intro cur hsub hcard
      have heq : cur = insert a (edgeTargets g) :=
        Finset.eq_of_subset_of_card_le hsub (by omega)
      show stepF g cur = cur
      apply Finset.Subset.antisymm
      · rw [heq]
        exact stepF_subset_univ (le_refl _)
      · exact subset_stepF g cur
  | succ n ih =>
      intro cur hsub hcard
      by_cases hf : stepF g cur = cur
      · show stepF g (iterF g n (stepF g cur)) = iterF g n (stepF g cur)
        rw [hf, iterF_of_fixed hf, hf]
      · have hss : cur ⊂ stepF g cur :=
          HasSubset.Subset.ssubset_of_ne (subset_stepF g cur) (Ne.symm hf)
        have hlt : cur.card < (stepF g cur).card := Finset.card_lt_card hss
        show stepF g (iterF g n (stepF g cur)) = iterF g n (stepF g cur)
        exact ih (stepF g cur) (stepF_subset_univ hsub) (by omega)

theorem stepF_reachSet (g : DiGraph) (a : String) :
    stepF g (reachSet g a) = reachSet g a := by
  unfold reachSet
  apply iterF_fixed_reached (insert a (edgeTargets g)).card {a}
  · intro x hx
    rw [Finset.mem_singleton.mp hx]
    exact Finset.mem_insert_self a _
  · rw [Finset.card_singleton]
    omega

theorem self_mem_reachSet (g : DiGraph) (a : String) : a ∈ reachSet g a :=
  subset_iterF g _ {a} (Finset.mem_singleton_self a)

theorem mem_reachSet {g : DiGraph} {a x : String} :
    x ∈ reachSet g a ↔ Reaches g a x := by
  constructor
  · intro hx
    refine iterF_sound _ {a} ?_ x hx
    intro y hy
    rw [Finset.mem_singleton.mp hy]
    exact Relation.ReflTransGen.refl
  · intro hr
    induction hr with
    | refl => exact self_mem_reachSet g a
    | tail hab hbc ih =>
        rename_i b c
        rw [← stepF_reachSet g a]
        exact mem_stepF.mpr (Or.inr ⟨b, ih, hbc⟩)

theorem edgeRel_reverseG {g : DiGraph} {x y : String} :
    edgeRel (reverseG g) x y ↔ edgeRel g y x := by
  unfold edgeRel reverseG
  simp only [List.mem_map]
  constructor
  · rintro ⟨d, e, he, heq⟩
    have h1 : e.2.1 = x := congrArg Prod.fst heq
    have h2 : e.1 = y := congrArg Prod.fst (congrArg Prod.snd heq)
    have h3 : e.2.2 = d := congrArg Prod.snd (congrArg Prod.snd heq)
    refine ⟨e.2.2, ?_⟩
    have : (e.1, e.2.1, e.2.2) = e := rfl
    rw [← h1, ← h2]
    rw [this]
    exact he
  · rintro ⟨d, hd⟩
    exact ⟨d, (y, x, d), hd, rfl⟩

theorem reaches_reverseG {g : DiGraph} {x y : String} :
    Reaches (reverseG g) x y ↔ Reaches g y x := by
  constructor
  · intro h
    have h2 : Relation.ReflTransGen (Function.swap (edgeRel g)) x y :=
      Relation.ReflTransGen.mono (fun _ _ hr => edgeRel_reverseG.mp hr) h
    exact Relation.reflTransGen_swap.mp h2
  · intro h
    have h2 : Relation.ReflTransGen (Function.swap (edgeRel g)) x y :=
      Relation.reflTransGen_swap.mpr h
    exact Relation.ReflTransGen.mono (fun _ _ hr => edgeRel_reverseG.mpr hr) h2

end BtcAnalyzer

namespace BtcAnalyzer

/-! ## Membership characterisation of the pruning filter -/

theorem mem_presentSeeds {initial : List String} {g : DiGraph} {a : String} :
    a ∈ presentSeeds initial g ↔ a ∈ initial ∧ a ∈ g.nodes := by
  unfold presentSeeds
  simp [List.mem_filter, mem_dedupKeepFirst, decide_eq_true_eq]

theorem mem_descStep {g : DiGraph} {acc : Finset String} {n x : String} :
    x ∈ insert n (acc ∪ nxDescendants g n) ↔ x ∈ acc ∨ x ∈ reachSet g n := by
  unfold nxDescendants
  simp only [Finset.mem_insert, Finset.mem_union, Finset.mem_erase]
  constructor
  · rintro (h | h | ⟨_, h⟩)
    · exact Or.inr (h ▸ self_mem_reachSet g n)
    · exact Or.inl h
    · exact Or.inr h
  · rintro (h | h)
    · exact Or.inr (Or.inl h)
    · by_cases hxn : x = n
      · exact Or.inl hxn
      · exact Or.inr (Or.inr ⟨hxn, h⟩)

theorem mem_descFold {g : DiGraph} {x : String} :
    ∀ (l : List String) (acc : Finset String),
      (x ∈ l.foldl (fun acc node => insert node (acc ∪ nxDescendants g node)) acc ↔
        x ∈ acc ∨ ∃ n ∈ l, x ∈ reachSet g n) := by
  intro l
  induction l with
  | nil => intro acc; simp
  | cons n l ih =>
      intro acc
      simp only [List.foldl_cons, List.mem_cons]
      rw [ih, mem_descStep]
      constructor
      · rintro ((h | h) | ⟨n2, hn2, h⟩)
        · exact Or.inl h
        · exact Or.inr ⟨n, Or.inl rfl, h⟩
        · exact Or.inr ⟨n2, Or.inr hn2, h⟩
      · rintro (h | ⟨n2, hn2, h⟩)
        · exact Or.inl (Or.inl h)
        · rcases hn2 with h3 | h3
          · exact Or.inl (Or.inr (h3 ▸ h))
          · exact Or.inr ⟨n2, h3, h⟩

theorem mem_ancStep {g : DiGraph} {acc : Finset String} {n x : String} :
    x ∈ insert n (acc ∪ nxAncestors g n) ↔
      x ∈ acc ∨ x ∈ reachSet (reverseG g) n := by
  unfold nxAncestors
  simp only [Finset.mem_insert, Finset.mem_union, Finset.mem_erase]
  constructor
  · rintro (h | h | ⟨_, h⟩)
    · exact Or.inr (h ▸ self_mem_reachSet (reverseG g) n)
    · exact Or.inl h
    · exact Or.inr h
  · rintro (h | h)
    · exact Or.inr (Or.inl h)
    · by_cases hxn : x = n
      · exact Or.inl hxn
      · exact Or.inr (Or.inr ⟨hxn, h⟩)

theorem mem_ancFold {g : DiGraph} {x : String} :
    ∀ (l : List String) (acc : Finset String),
      (x ∈ l.foldl (fun acc node => insert node (acc ∪ nxAncestors g node)) acc ↔
        x ∈ acc ∨ ∃ n ∈ l, Reaches g x n) := by
  intro l
  induction l with
  | nil => intro acc; simp
  | cons n l ih =>
      intro acc
      simp only [List.foldl_cons, List.mem_cons]
      rw [ih, mem_ancStep]
      have hrev : x ∈ reachSet (reverseG g) n ↔ Reaches g x n :=
        mem_reachSet.trans reaches_reverseG
      constructor
      · rintro ((h | h) | ⟨n2, hn2, h⟩)
        · exact Or.inl h
        · exact Or.inr ⟨n, Or.inl rfl, hrev.mp h⟩
        · exact Or.inr ⟨n2, Or.inr hn2, h⟩
      · rintro (h | ⟨n2, hn2, h⟩)
        · exact Or.inl (Or.inl h)
        · rcases hn2 with h3 | h3
          · exact Or.inl (Or.inr (hrev.mpr (h3 ▸ h)))
          · exact Or.inr ⟨n2, h3, h⟩

theorem mem_descFold_iff {g : DiGraph} {l : List String} {x : String} :
    x ∈ descFold g l ↔ ∃ n ∈ l, Reaches g n x := by
  unfold descFold
  rw [mem_descFold l ∅]
  simp only [Finset.not_mem_empty, false_or]
  constructor
  · rintro ⟨n, hn, h⟩
    exact ⟨n, hn, mem_reachSet.mp h⟩
  · rintro ⟨n, hn, h⟩
    exact ⟨n, hn, mem_reachSet.mpr h⟩

theorem mem_ancFold_iff {g : DiGraph} {l : List String} {x : String} :
    x ∈ ancFold g l ↔ ∃ n ∈ l, Reaches g x n := by
  unfold ancFold
  rw [mem_ancFold l ∅]
  simp

theorem mem_subgraphOver_nodes {g : DiGraph} {keep : Finset String} {x : String} :
    x ∈ (subgraphOver g keep).nodes ↔ x ∈ g.nodes ∧ x ∈ keep := by
  unfold subgraphOver
  simp [List.mem_filter]

theorem mem_subgraphOver_edges {g : DiGraph} {keep : Finset String}
    {e : String × String × EdgeData} :
    e ∈ (subgraphOver g keep).edges ↔ e ∈ g.edges ∧ e.1 ∈ keep ∧ e.2.1 ∈ keep := by
  unfold subgraphOver
  simp [List.mem_filter]

theorem filterRel_eq_lt {initial : List String} {g : DiGraph}
    (h : (presentSeeds initial g).length < 2) :
    filter_relevant_graph initial g =
      subgraphOver g (presentSeeds initial g).toFinset := by
  unfold filter_relevant_graph
  rw [if_pos h]

theorem filterRel_eq_ge {initial : List String} {g : DiGraph}
    (h : 2 ≤ (presentSeeds initial g).length) :
    filter_relevant_graph initial g =
      subgraphOver g
        (descFold g (presentSeeds initial g) ∩ ancFold g (presentSeeds initial g)) := by
  unfold filter_relevant_graph
  rw [if_neg (Nat.not_lt.mpr h)]

theorem mem_filterRel_nodes_ge {initial : List String} {g : DiGraph} {x : String}
    (h : 2 ≤ (presentSeeds initial g).length) :
    x ∈ (filter_relevant_graph initial g).nodes ↔
      x ∈ g.nodes ∧ (∃ s ∈ presentSeeds initial g, Reaches g s x) ∧
        (∃ s ∈ presentSeeds initial g, Reaches g x s) := by
  rw [filterRel_eq_ge h, mem_subgraphOver_nodes, Finset.mem_inter,
    mem_descFold_iff, mem_ancFold_iff]

theorem mem_filterRel_edges_ge {initial : List String} {g : DiGraph}
    {e : String × String × EdgeData}
    (h : 2 ≤ (presentSeeds initial g).length) :
    e ∈ (filter_relevant_graph initial g).edges ↔
      e ∈ g.edges ∧
        ((∃ s ∈ presentSeeds initial g, Reaches g s e.1) ∧
          (∃ s ∈ presentSeeds initial g, Reaches g e.1 s)) ∧
        ((∃ s ∈ presentSeeds initial g, Reaches g s e.2.1) ∧
          (∃ s ∈ presentSeeds initial g, Reaches g e.2.1 s)) := by
  rw [filterRel_eq_ge h, mem_subgraphOver_edges]
  simp only [Finset.mem_inter, mem_descFold_iff, mem_ancFold_iff]

theorem mem_filterRel_nodes_lt {initial : List String} {g : DiGraph} {x : String}
    (h : (presentSeeds initial g).length < 2) :
    x ∈ (filter_relevant_graph initial g).nodes ↔
      x ∈ g.nodes ∧ x ∈ presentSeeds initial g := by
  rw [filterRel_eq_lt h, mem_subgraphOver_nodes, List.mem_toFinset]

theorem mem_filterRel_edges_lt {initial : List String} {g : DiGraph}
    {e : String × String × EdgeData}
    (h : (presentSeeds initial g).length < 2) :
    e ∈ (filter_relevant_graph initial g).edges ↔
      e ∈ g.edges ∧ e.1 ∈ presentSeeds initial g ∧ e.2.1 ∈ presentSeeds initial g := by
  rw [filterRel_eq_lt h, mem_subgraphOver_edges, List.mem_toFinset, List.mem_toFinset]

/-- In a well-formed graph, anything reachable from a node of the graph is
a node of the graph. -/
theorem reaches_mem_nodes {g : DiGraph} (hwf : WFGraph g) {s x : String}
    (hs : s ∈ g.nodes) (h : Reaches g s x) : x ∈ g.nodes := by
  rcases Relation.ReflTransGen.cases_tail h with h1 | ⟨c, _, h2⟩
  · exact h1 ▸ hs
  · rcases h2 with ⟨d, hd⟩
    exact (hwf (c, x, d) hd).2

end BtcAnalyzer


namespace BtcAnalyzer

/-! ## Claim theorems -/

/-- C1: for every completed graph and seed set, `filter_relevant_graph`
returns, when fewer than 2 seeds are present, the node-induced subgraph
over just the present seeds; otherwise the node-induced subgraph over
`D ∩ A`, where `D` is the union over present seeds of the nodes reachable
from that seed (seed included) and `A` the union over present seeds of the
nodes that can reach that seed (seed included). -/
theorem spec_c1 (initial : List String) (g : DiGraph) (x : String)
    (e : String × String × EdgeData) :
    ((presentSeeds initial g).length < 2 →
      ((x ∈ (filter_relevant_graph initial g).nodes ↔
          x ∈ g.nodes ∧ x ∈ presentSeeds initial g) ∧
        (e ∈ (filter_relevant_graph initial g).edges ↔
          e ∈ g.edges ∧ e.1 ∈ presentSeeds initial g ∧
            e.2.1 ∈ presentSeeds initial g))) ∧
    (2 ≤ (presentSeeds initial g).length →
      ((x ∈ (filter_relevant_graph initial g).nodes ↔
          x ∈ g.nodes ∧ (∃ s ∈ presentSeeds initial g, Reaches g s x) ∧
            (∃ s ∈ presentSeeds initial g, Reaches g x s)) ∧
        (e ∈ (filter_relevant_graph initial g).edges ↔
          e ∈ g.edges ∧
            ((∃ s ∈ presentSeeds initial g, Reaches g s e.1) ∧
              (∃ s ∈ presentSeeds initial g, Reaches g e.1 s)) ∧
            ((∃ s ∈ presentSeeds initial g, Reaches g s e.2.1) ∧
              (∃ s ∈ presentSeeds initial g, Reaches g e.2.1 s))))) :=
  ⟨fun h => ⟨mem_filterRel_nodes_lt h, mem_filterRel_edges_lt h⟩,
   fun h => ⟨mem_filterRel_nodes_ge h, mem_filterRel_edges_ge h⟩⟩

/-- Witness for C1 at the chain graph with both seeds present. -/
theorem spec_c1_witness :
    2 ≤ (presentSeeds ["A", "B"] gChain).length ∧
    ("X" ∈ (filter_relevant_graph ["A", "B"] gChain).nodes ↔
      "X" ∈ gChain.nodes ∧
        (∃ s ∈ presentSeeds ["A", "B"] gChain, Reaches gChain s "X") ∧
        (∃ s ∈ presentSeeds ["A", "B"] gChain, Reaches gChain "X" s)) :=
  ⟨by decide,
   ((spec_c1 ["A", "B"] gChain "X" ("A", "X", ⟨some "t1", 1⟩)).2 (by decide)).1⟩

/-- C2: with at least 2 present seeds, a node is kept by the pruning
filter iff it lies on some directed path from a seed to a seed (possibly
the same seed); in particular on the chain A → X → B with dead end X → Y,
pruning keeps exactly `{A, X, B}`, excluding Y and retaining X. -/
theorem spec_c2 :
    (∀ (g : DiGraph) (initial : List String) (x : String),
      WFGraph g → 2 ≤ (presentSeeds initial g).length →
      (x ∈ (filter_relevant_graph initial g).nodes ↔
        ∃ s1 ∈ presentSeeds initial g, ∃ s2 ∈ presentSeeds initial g,
          Reaches g s1 x ∧ Reaches g x s2)) ∧
    ((filter_relevant_graph ["A", "B"] gChain).nodes = ["A", "X", "B"] ∧
      "Y" ∉ (filter_relevant_graph ["A", "B"] gChain).nodes ∧
      "X" ∈ (filter_relevant_graph ["A", "B"] gChain).nodes) := by
  constructor
  · intro g initial x hwf h2
    rw [mem_filterRel_nodes_ge h2]
    constructor
    · rintro ⟨_, ⟨s1, hs1, hr1⟩, ⟨s2, hs2, hr2⟩⟩
      exact ⟨s1, hs1, s2, hs2, hr1, hr2⟩
    · rintro ⟨s1, hs1, s2, hs2, hr1, hr2⟩
      exact ⟨reaches_mem_nodes hwf (mem_presentSeeds.mp hs1).2 hr1,
        ⟨s1, hs1, hr1⟩, ⟨s2, hs2, hr2⟩⟩
  · exact ⟨by decide, by decide, by decide⟩

/-- Witness for C2: the kept-node characterisation at the chain graph. -/
theorem spec_c2_witness :
    WFGraph gChain ∧ 2 ≤ (presentSeeds ["A", "B"] gChain).length ∧
    ("X" ∈ (filter_relevant_graph ["A", "B"] gChain).nodes ↔
      ∃ s1 ∈ presentSeeds ["A", "B"] gChain,
        ∃ s2 ∈ presentSeeds ["A", "B"] gChain,
          Reaches gChain s1 "X" ∧ Reaches gChain "X" s2) :=
  ⟨by decide, by decide, spec_c2.1 gChain ["A", "B"] "X" (by decide) (by decide)⟩

/-- C3: `is_tx_relevant` is true iff some recorded window contains the
timestamp inclusively; an address with no recorded window is never
relevant; for an only window `(mn, mx)` the decision is true at `mn` and
`mx` and false at `mn - 1` and `mx + 1`. -/
theorem spec_c3 (c : Constraints) (a : String) (t : Int) :
    (is_tx_relevant c a t = true ↔ ∃ w ∈ windowsOf c a, w.1 ≤ t ∧ t ≤ w.2) ∧
    (windowsOf c a = [] → is_tx_relevant c a t = false) ∧
    (∀ mn mx : Int, windowsOf c a = [(mn, mx)] → mn ≤ mx →
      is_tx_relevant c a mn = true ∧ is_tx_relevant c a mx = true ∧
      is_tx_relevant c a (mn - 1) = false ∧
      is_tx_relevant c a (mx + 1) = false) := by
  refine ⟨is_tx_relevant_iff c a t, ?_, ?_⟩
  · intro hw
    cases hb : is_tx_relevant c a t
    · rfl
    · exfalso
      rcases (is_tx_relevant_iff c a t).mp hb with ⟨w, hwmem, _⟩
      rw [hw] at hwmem
      simp at hwmem
  · intro mn mx hw hle
    refine ⟨?_, ?_, ?_, ?_⟩
    · exact (is_tx_relevant_iff c a mn).mpr
        ⟨(mn, mx), by rw [hw]; exact List.mem_singleton_self _, le_refl mn, hle⟩
    · exact (is_tx_relevant_iff c a mx).mpr
        ⟨(mn, mx), by rw [hw]; exact List.mem_singleton_self _, hle, le_refl mx⟩
    · cases hb : is_tx_relevant c a (mn - 1)
      · rfl
      · exfalso
        rcases (is_tx_relevant_iff c a (mn - 1)).mp hb with ⟨w, hwmem, hw1, hw2⟩
        rw [hw, List.mem_singleton] at hwmem
        rw [hwmem] at hw1
        simp only at hw1
        omega
    · cases hb : is_tx_relevant c a (mx + 1)
      · rfl
      · exfalso
        rcases (is_tx_relevant_iff c a (mx + 1)).mp hb with ⟨w, hwmem, hw1, hw2⟩
        rw [hw, List.mem_singleton] at hwmem
        rw [hwmem] at hw2
        simp only at hw2
        omega

/-- Witness for C3 on the store holding the single window (10, 20). -/
theorem spec_c3_witness :
    is_tx_relevant cW "a" 10 = true ∧ is_tx_relevant cW "a" 20 = true ∧
    is_tx_relevant cW "a" (10 - 1) = false ∧
    is_tx_relevant cW "a" (20 + 1) = false := by
  have h := (spec_c3 cW "a" 0).2.2 10 20 (by decide) (by decide)
  exact ⟨h.1, h.2.1, h.2.2.1, h.2.2.2⟩

/-- C4 as written is false: a participant of a relevant transaction that
has no distinct counterparty (here, a sender in a transaction with no
resolvable receivers) is never added to the next frontier and receives no
window. -/
theorem spec_c4_counterexample :
    txRelevant (mkConstraints ["A"] none none) ["A"] txNoRecv = true ∧
    "N" ∈ txParticipants txNoRecv ∧
    (analyze ["A"] 1 none none oracleNoRecv).2.map
      (fun e => (e.level, e.frontier, e.stStart.visited, e.next)) =
      [(0, ["A"], ["A"], [])] ∧
    windowsOf
      ((analyze ["A"] 1 none none oracleNoRecv).1).address_constraints "N" = [] :=
  ⟨by decide, by decide, by decide, by decide⟩

/-- C4 (amended): for a relevant transaction at level `L < max_level`, an
address `a` neither visited nor in the current frontier is added to the
next frontier iff the transaction has a sender/receiver pair `(s, r)` with
`s ≠ r` and `a ∈ {s, r}`; its window list grows by exactly one copy of
`[t − 604800, t + 604800]` per such pair (so several identical windows can
come from one transaction, and none when `a` has no distinct
counterparty), with all prior windows retained. -/
theorem spec_c4_amended (level maxLevel : Nat) (current batch : List String)
    (st : St) (tx : Tx) (a : String)
    (hlv : level < maxLevel)
    (hrel : txRelevant st.address_constraints batch tx = true)
    (hav : a ∉ st.visited) (hac : a ∉ current) :
    (windowsOf (processTx level maxLevel current batch st tx).address_constraints a =
      windowsOf st.address_constraints a ++
        List.replicate (txPairCount tx a)
          (txTime tx - one_week, txTime tx + one_week)) ∧
    (a ∈ (processTx level maxLevel current batch st tx).nextLevel ↔
      a ∈ st.nextLevel ∨ 0 < txPairCount tx a) ∧
    (txPairCount tx a =
      (if a ∈ txSenders tx then
        ((txReceivers tx).filter (fun r => decide (¬ r = a))).length else 0) +
      (if a ∈ txReceivers tx then
        ((txSenders tx).filter (fun s => decide (¬ s = a))).length else 0)) := by
  refine ⟨processTx_windows level maxLevel current batch st tx a hrel hav hac hlv,
    processTx_next_mem level maxLevel current batch st tx a hrel hav hac hlv, ?_⟩
  exact sum_pair_filter a (txReceivers tx) (nodup_txReceivers tx)
    (txSenders tx) (nodup_txSenders tx)

/-- Witness for the amended C4 on a transaction whose new sender M faces
two receivers. -/
theorem spec_c4_witness :
    (windowsOf (processTx 0 1 ["A"] ["A"] stSeedA txMulti).address_constraints "M" =
      windowsOf stSeedA.address_constraints "M" ++
        List.replicate (txPairCount txMulti "M")
          (txTime txMulti - one_week, txTime txMulti + one_week)) ∧
    ("M" ∈ (processTx 0 1 ["A"] ["A"] stSeedA txMulti).nextLevel ↔
      "M" ∈ stSeedA.nextLevel ∨ 0 < txPairCount txMulti "M") := by
  have h := spec_c4_amended 0 1 ["A"] ["A"] stSeedA txMulti "M" (by decide)
    (by decide) (by decide) (by decide)
  exact ⟨h.1, h.2.1⟩

/-- C5 as written is false: with `max_level = 0` a relevant transaction
still records every sender/receiver pair, so an edge between two non-seed
addresses appears in the graph. -/
theorem spec_c5_counterexample :
    ("Z", "W", (⟨some "tx2", 1000⟩ : EdgeData)) ∈
      ((analyze ["A"] 0 none none oracleZW).1).graph.edges ∧
    "Z" ∉ dedupKeepFirst ["A"] ∧ "W" ∉ dedupKeepFirst ["A"] :=
  ⟨by decide, by decide, by decide⟩

/-- C5 (amended): a level at or beyond `max_level` never extends the next
frontier or the constraint store; with `max_level = 0` every executed
level produces an empty next frontier; and the graph update of a
transaction is independent of the level it is processed at, so its edges
(including edges between non-seed participants) are still recorded. -/
theorem spec_c5_amended :
    (∀ (httpGet : Nat → List String → HttpResult) (level maxLevel : Nat)
        (current : List String) (st : St),
      ¬ level < maxLevel →
      (runLevel httpGet level maxLevel current st).nextLevel = st.nextLevel ∧
      (runLevel httpGet level maxLevel current st).address_constraints =
        st.address_constraints) ∧
    (∀ (addresses : List String) (sd ed : Option Int)
        (httpGet : Nat → List String → HttpResult),
      ∀ entry ∈ (analyze addresses 0 sd ed httpGet).2, entry.next = []) ∧
    (∀ (level level2 maxLevel maxLevel2 : Nat)
        (current current2 batch : List String) (st : St) (tx : Tx),
      (processTx level maxLevel current batch st tx).graph =
        (processTx level2 maxLevel2 current2 batch st tx).graph) := by
  refine ⟨?_, ?_, ?_⟩
  · intro httpGet level maxLevel current st hlv
    exact runLevel_frozen_of_ge httpGet level maxLevel current st hlv
  · intro addresses sd ed httpGet entry hentry
    exact loop_maxLevel_zero_next httpGet (0 + 1) 0 _ _ entry hentry
  · intro level level2 maxLevel maxLevel2 current current2 batch st tx
    rw [processTx_graph, processTx_graph]

/-- Witness for the amended C5 at `level = max_level = 0`. -/
theorem spec_c5_witness :
    (runLevel oracleZW 0 0 ["A"] stSeedA).nextLevel = stSeedA.nextLevel ∧
    (runLevel oracleZW 0 0 ["A"] stSeedA).address_constraints =
      stSeedA.address_constraints :=
  spec_c5_amended.1 oracleZW 0 0 ["A"] stSeedA (by decide)

/-- C6: the engine never records a self-loop; every edge of the final
graph of any run has distinct endpoints. -/
theorem spec_c6 (addresses : List String) (maxLevel : Nat) (sd ed : Option Int)
    (httpGet : Nat → List String → HttpResult)
    (e : String × String × EdgeData)
    (he : e ∈ ((analyze addresses maxLevel sd ed httpGet).1).graph.edges) :
    e.1 ≠ e.2.1 := by
  have hinv : ∀ e2 ∈ ((analyze addresses maxLevel sd ed httpGet).1).graph.edges,
      e2.1 ≠ e2.2.1 := by
    apply analyze_graph_preserve (fun g => ∀ e2 ∈ g.edges, e2.1 ≠ e2.2.1)
    · intro g s r d hsr hg e2 he2
      rcases mem_upsertE he2 with h1 | h1
      · exact hg e2 h1
      · rw [h1]
        exact hsr
    · intro e2 he2
      simp at he2
  exact hinv e he

/-- Witness for C6 on the one-edge run. -/
theorem spec_c6_witness : ("addr1" : String) ≠ "addr2" :=
  spec_c6 ["addr1"] 1 none none oracleAB ("addr1", "addr2", ⟨some "tx1", 1000⟩)
    (by decide)

theorem find?_upsertE_other (l : List (String × String × EdgeData))
    (s2 r2 s r : String) (d : EdgeData) (hne : ¬ (s2 = s ∧ r2 = r)) :
    (upsertE l s2 r2 d).find? (fun e => e.1 = s && e.2.1 = r) =
      l.find? (fun e => e.1 = s && e.2.1 = r) := by
  have hpfalse : (decide (s2 = s) && decide (r2 = r)) = false := by
    rcases Decidable.not_and_iff_or_not.mp hne with h | h <;> simp [h]
  induction l with
  | nil => simp [upsertE, List.find?, hpfalse]
  | cons e t ih =>
      simp only [upsertE]
      split
      · rename_i hk
        simp [List.find?, hpfalse, hk.1, hk.2]
      · simp only [List.find?]
        cases hp : (decide (e.1 = s) && decide (e.2.1 = r)) <;> simp [hp, ih]

theorem lookupEdge_add_edge_other (g : DiGraph) (s2 r2 s r : String)
    (d : EdgeData) (hne : ¬ (s2 = s ∧ r2 = r)) :
    lookupEdge (add_edge g s2 r2 d) s r = lookupEdge g s r := by
  unfold lookupEdge add_edge
  rw [find?_upsertE_other g.edges s2 r2 s r d hne]

theorem lookupEdge_foldR_pairs (d : EdgeData) (s2 s r : String) :
    ∀ (R : List String) (g : DiGraph),
      lookupEdge
        (R.foldl (fun g3 r2 => if s2 = r2 then g3 else add_edge g3 s2 r2 d) g) s r =
      if s2 = s ∧ r ∈ R ∧ ¬ s = r then some d else lookupEdge g s r := by
  intro R
  induction R with
  | nil => intro g; simp
  | cons r2 R ih =>
      intro g
      simp only [List.foldl_cons]
      rw [ih]
      by_cases hC : s2 = s ∧ r ∈ R ∧ ¬ s = r
      · rw [if_pos hC, if_pos ⟨hC.1, List.mem_cons_of_mem _ hC.2.1, hC.2.2⟩]
      · rw [if_neg hC]
        by_cases hHead : s2 = s ∧ r2 = r ∧ ¬ s = r
        · have hcond : s2 = s ∧ r ∈ r2 :: R ∧ ¬ s = r :=
            ⟨hHead.1, List.mem_cons.mpr (Or.inl hHead.2.1.symm), hHead.2.2⟩
          rw [if_pos hcond]
          have hs2r2 : ¬ s2 = r2 := by
            intro he
            exact hHead.2.2 (hHead.1.symm.trans (he.trans hHead.2.1))
          rw [if_neg hs2r2, hHead.1, hHead.2.1]
          exact lookupEdge_add_edge_self g s r d
        · have hcond : ¬ (s2 = s ∧ r ∈ r2 :: R ∧ ¬ s = r) := by
            intro hc
            rcases List.mem_cons.mp hc.2.1 with h1 | h1
            · exact hHead ⟨hc.1, h1.symm, hc.2.2⟩
            · exact hC ⟨hc.1, h1, hc.2.2⟩
          rw [if_neg hcond]
          by_cases hrr : s2 = r2
          · rw [if_pos hrr]
          · rw [if_neg hrr]
            apply lookupEdge_add_edge_other
            intro hk
            by_cases hsr : s = r
            · exact hrr (hk.1.trans (hsr.trans hk.2.symm))
            · exact hHead ⟨hk.1, hk.2, hsr⟩

theorem lookupEdge_foldS_pairs (d : EdgeData) (s r : String) (R : List String) :
    ∀ (S : List String) (g : DiGraph),
      lookupEdge
        (S.foldl
          (fun g2 s2 =>
            R.foldl (fun g3 r2 => if s2 = r2 then g3 else add_edge g3 s2 r2 d) g2)
          g) s r =
      if s ∈ S ∧ r ∈ R ∧ ¬ s = r then some d else lookupEdge g s r := by
  intro S
  induction S with
  | nil => intro g; simp
  | cons s2 S ih =>
      intro g
      simp only [List.foldl_cons]
      rw [ih]
      by_cases hC : s ∈ S ∧ r ∈ R ∧ ¬ s = r
      · rw [if_pos hC, if_pos ⟨List.mem_cons_of_mem _ hC.1, hC.2⟩]
      · rw [if_neg hC, lookupEdge_foldR_pairs]
        by_cases hHead : s2 = s ∧ r ∈ R ∧ ¬ s = r
        · rw [if_pos hHead,
            if_pos ⟨List.mem_cons.mpr (Or.inl hHead.1.symm), hHead.2⟩]
        · rw [if_neg hHead]
          have hcond : ¬ (s ∈ s2 :: S ∧ r ∈ R ∧ ¬ s = r) := by
            intro hc
            rcases List.mem_cons.mp hc.1 with h1 | h1
            · exact hHead ⟨h1.symm, hc.2⟩
            · exact hC ⟨h1, hc.2⟩
          rw [if_neg hcond]

theorem lookupEdge_txGraphUpdate (tx : Tx) (g : DiGraph) (s r : String) :
    lookupEdge (txGraphUpdate tx g) s r =
      if txHasPair tx s r then some ⟨tx.hash, txTime tx⟩
      else lookupEdge g s r := by
  unfold txGraphUpdate
  rw [lookupEdge_foldS_pairs]

theorem lookupEdge_processTx (level maxLevel : Nat) (current batch : List String)
    (st : St) (tx : Tx) (s r : String) :
    lookupEdge (processTx level maxLevel current batch st tx).graph s r =
      if txRelevant st.address_constraints batch tx = true ∧ txHasPair tx s r
      then some ⟨tx.hash, txTime tx⟩ else lookupEdge st.graph s r := by
  rw [processTx_graph]
  by_cases hrel : txRelevant st.address_constraints batch tx = true
  · rw [if_pos hrel, lookupEdge_txGraphUpdate]
    by_cases hp : txHasPair tx s r
    · rw [if_pos hp, if_pos ⟨hrel, hp⟩]
    · rw [if_neg hp, if_neg (fun hc => hp hc.2)]
  · rw [if_neg hrel, if_neg (fun hc => hrel hc.1)]

theorem countEdge_eq_one_of_lookup (g : DiGraph) (s r : String) (d : EdgeData)
    (hnd : (keysOf g).Nodup) (hl : lookupEdge g s r = some d) :
    countEdge g s r = 1 := by
  unfold lookupEdge at hl
  rcases Option.map_eq_some'.mp hl with ⟨e, hfind, _⟩
  have hmem : e ∈ g.edges := List.mem_of_find?_eq_some hfind
  have hpe := List.find?_some hfind
  simp only [Bool.and_eq_true, decide_eq_true_eq] at hpe
  have hkey : (s, r) ∈ g.edges.map (fun e => (e.1, e.2.1)) :=
    List.mem_map.mpr ⟨e, hmem, by rw [hpe.1, hpe.2]⟩
  rw [countEdge_eq_countP_keys]
  exact countP_eq_one_of_nodup_mem _ _ hnd hkey

theorem nodup_keys_foldl_processTx (level maxLevel : Nat)
    (current batch : List String) (txs : List Tx) (st : St)
    (hnd : (keysOf st.graph).Nodup) :
    (keysOf ((txs.foldl (processTx level maxLevel current batch) st)).graph).Nodup :=
  foldl_preserve (fun b => (keysOf b.graph).Nodup) _
    (fun b tx hb =>
      processTx_graph_preserve (fun g => (keysOf g).Nodup)
        (fun _ _ _ _ _ hg => nodup_keys_add_edge hg)
        level maxLevel current batch b tx hb)
    txs st hnd

theorem lookupEdge_foldl_processTx (level maxLevel : Nat)
    (current batch : List String) (s r : String) :
    ∀ (txs : List Tx) (st : St),
      lookupEdge ((txs.foldl (processTx level maxLevel current batch) st).graph) s r =
        match lastPairWrite level maxLevel current batch s r txs st with
        | some d => some d
        | none => lookupEdge st.graph s r := by
  intro txs
  induction txs with
  | nil => intro st; rfl
  | cons tx rest ih =>
      intro st
      simp only [List.foldl_cons, lastPairWrite]
      rw [ih]
      cases hlast : lastPairWrite level maxLevel current batch s r rest
          (processTx level maxLevel current batch st tx) with
      | some d => simp [hlast]
      | none =>
          simp only [hlast]
          rw [lookupEdge_processTx]
          by_cases hrel : txRelevant st.address_constraints batch tx = true
          · by_cases hp : txHasPair tx s r
            · rw [if_pos ⟨hrel, hp⟩, if_pos ⟨hrel, hp⟩]
            · rw [if_neg (fun hcc => hp hcc.2), if_neg (fun hcc => hp hcc.2)]
          · rw [if_neg (fun hcc => hrel hcc.1), if_neg (fun hcc => hrel hcc.1)]

/-- C7: every run graph carries at most one edge per ordered pair (its
edge keys are duplicate-free); processing one transaction sets the pair's
record to that transaction's hash/time exactly when the transaction is
relevant and contains the pair, and leaves it untouched otherwise
(upserts on the transaction's other pairs do not disturb it); hence after
processing any sequence of transactions, if some processed transaction
was relevant and contained the pair, the graph holds exactly one edge for
the pair, bearing the most recently processed such transaction's
hash/time. -/
theorem spec_c7 :
    (∀ (addresses : List String) (maxLevel : Nat) (sd ed : Option Int)
        (httpGet : Nat → List String → HttpResult),
      (keysOf ((analyze addresses maxLevel sd ed httpGet).1).graph).Nodup) ∧
    (∀ (level maxLevel : Nat) (current batch : List String) (st : St) (tx : Tx)
        (s r : String),
      lookupEdge (processTx level maxLevel current batch st tx).graph s r =
        if txRelevant st.address_constraints batch tx = true ∧ txHasPair tx s r
        then some ⟨tx.hash, txTime tx⟩ else lookupEdge st.graph s r) ∧
    (∀ (level maxLevel : Nat) (current batch : List String) (s r : String)
        (txs : List Tx) (st : St) (d : EdgeData),
      (keysOf st.graph).Nodup →
      lastPairWrite level maxLevel current batch s r txs st = some d →
      lookupEdge ((txs.foldl (processTx level maxLevel current batch) st).graph)
        s r = some d ∧
      countEdge ((txs.foldl (processTx level maxLevel current batch) st).graph)
        s r = 1) := by
  refine ⟨?_, lookupEdge_processTx, ?_⟩
  · intro addresses maxLevel sd ed httpGet
    apply analyze_graph_preserve (fun g => (keysOf g).Nodup)
    · intro g s r d _ hg
      exact nodup_keys_add_edge hg
    · show (keysOf ⟨dedupKeepFirst addresses, []⟩).Nodup
      simp [keysOf]
  · intro level maxLevel current batch s r txs st d hnd hlast
    have hl := lookupEdge_foldl_processTx level maxLevel current batch s r txs st
    rw [hlast] at hl
    exact ⟨hl,
      countEdge_eq_one_of_lookup _ s r d
        (nodup_keys_foldl_processTx level maxLevel current batch txs st hnd) hl⟩

/-- Witness for C7: two relevant transactions each writing the pair
(A, R) amid other interleaved pairs — the final record is the second
transaction's hash/time, on exactly one edge — plus key uniqueness of the
one-edge run. -/
theorem spec_c7_witness :
    (keysOf ((analyze ["addr1"] 1 none none oracleAB).1).graph).Nodup ∧
    lastPairWrite 0 1 ["A"] ["A"] "A" "R" [txP1, txP2] stSeedA =
      some ⟨some "p2", 2000⟩ ∧
    lookupEdge
      (([txP1, txP2].foldl (processTx 0 1 ["A"] ["A"]) stSeedA).graph) "A" "R" =
      some ⟨some "p2", 2000⟩ ∧
    countEdge
      (([txP1, txP2].foldl (processTx 0 1 ["A"] ["A"]) stSeedA).graph) "A" "R" =
      1 := by
  refine ⟨spec_c7.1 ["addr1"] 1 none none oracleAB, by decide, ?_, ?_⟩
  · exact (spec_c7.2.2 0 1 ["A"] ["A"] "A" "R" [txP1, txP2] stSeedA
      ⟨some "p2", 2000⟩ (by decide) (by decide)).1
  · exact (spec_c7.2.2 0 1 ["A"] ["A"] "A" "R" [txP1, txP2] stSeedA
      ⟨some "p2", 2000⟩ (by decide) (by decide)).2

/-- C8: a failed or non-200 batch lookup yields the empty transaction
list (and, the function being total, never raises to its caller). -/
theorem spec_c8 (httpGet : List String → HttpResult) (addresses : List String)
    (h : (∃ msg, httpGet addresses = HttpResult.failure msg) ∨
      (∃ status txs, httpGet addresses = HttpResult.response status txs ∧
        status ≠ 200)) :
    fetch_batch_transactions httpGet addresses = [] := by
  unfold fetch_batch_transactions
  by_cases he : addresses = []
  · rw [if_pos he]
  · rw [if_neg he]
    rcases h with ⟨msg, hm⟩ | ⟨status, txs, hm, hs⟩
    · rw [hm]
    · rw [hm]
      simp [hs]

/-- Witness for C8 with a transport failure. -/
theorem spec_c8_witness :
    fetch_batch_transactions (fun _ => HttpResult.failure "timeout") ["a"] = [] :=
  spec_c8 (fun _ => HttpResult.failure "timeout") ["a"] (Or.inl ⟨"timeout", rfl⟩)

/-- C9 as written is false: already at the start of level 0 the frontier
equals the visited set (seeds are merged into visited before the level
runs), so frontier and visited are not disjoint. -/
theorem spec_c9_counterexample :
    runC9.2.map (fun e => (e.level, e.frontier, e.stStart.visited)) =
      [(0, ["a1"], ["a1"])] ∧
    ∃ entry ∈ runC9.2, "a1" ∈ entry.frontier ∧ "a1" ∈ entry.stStart.visited :=
  ⟨by decide, by decide⟩

/-- C9 (amended): at the start of every level the frontier is a subset of
the visited set — seeds are merged into visited before level 0, and each
next frontier is merged into visited at the end of the level that produced
it, before becoming the frontier. -/
theorem spec_c9_amended (addresses : List String) (maxLevel : Nat)
    (sd ed : Option Int) (httpGet : Nat → List String → HttpResult) :
    ∀ entry ∈ (analyze addresses maxLevel sd ed httpGet).2,
      ∀ x ∈ entry.frontier, x ∈ entry.stStart.visited := by
  unfold analyze
  apply loop_trace_frontier_visited
  intro x hx
  exact hx

/-- Witness for the amended C9 at the zero-level run's only trace entry. -/
theorem spec_c9_witness :
    "a1" ∈ (⟨⟨["a1"], []⟩, ["a1"], [], [("a1", [(0, 99999999999)])], []⟩ : St).visited :=
  spec_c9_amended ["a1"] 0 none none oracleEmpty
    ⟨0, ["a1"], ⟨⟨["a1"], []⟩, ["a1"], [], [("a1", [(0, 99999999999)])], []⟩, []⟩
    (by decide) "a1" (by decide)

/-- C10: with no caller-supplied dates, every seed is initialised with the
single window `[0, 99999999999]`, relevance for a seed holds exactly on
`0 ≤ t ≤ 99999999999`, and any later timestamp is not relevant. -/
theorem spec_c10 (addresses : List String) (a : String) (ha : a ∈ addresses) :
    windowsOf (mkConstraints addresses none none) a = [(0, 99999999999)] ∧
    (∀ t : Int, is_tx_relevant (mkConstraints addresses none none) a t = true ↔
      0 ≤ t ∧ t ≤ 99999999999) ∧
    (∀ t : Int, 99999999999 < t →
      is_tx_relevant (mkConstraints addresses none none) a t = false) := by
  have hw : windowsOf (mkConstraints addresses none none) a = [(0, 99999999999)] := by
    rw [windowsOf_mkConstraints]
    simp [ha, startTs, endTs]
  refine ⟨hw, ?_, ?_⟩
  · intro t
    rw [is_tx_relevant_iff, hw]
    simp
  · intro t ht
    cases hb : is_tx_relevant (mkConstraints addresses none none) a t
    · rfl
    · exfalso
      rcases (is_tx_relevant_iff _ _ _).mp hb with ⟨w, hwmem, _, hw2⟩
      rw [hw, List.mem_singleton] at hwmem
      rw [hwmem] at hw2
      simp only at hw2
      omega

/-- Witness for C10 on a single default-initialised seed. -/
theorem spec_c10_witness :
    windowsOf (mkConstraints ["s1"] none none) "s1" = [(0, 99999999999)] ∧
    is_tx_relevant (mkConstraints ["s1"] none none) "s1" 100000000000 = false := by
  have h := spec_c10 ["s1"] "s1" (by decide)
  exact ⟨h.1, h.2.2 100000000000 (by decide)⟩

end BtcAnalyzer
